import Mathlib

/-!
# sferes2 `sferes/misc/rand.hpp`: cached per-thread random generators

A shallow embedding of `src/sferes/misc/rand.hpp`.

* A `static thread_local` variable of a function is a field of an explicit
  slot state; the slot is `none` until the first call of the function in the
  thread has run the initialisers.
* `randutils::auto_seed_128` is the entropy source.  It is modelled by a counter
  of the seeds handed out so far; an engine remembers which seed it got and how
  many values were drawn from it since.
* The standard library's distributions are a parameter `ω`: `ω d e` is the value
  that a distribution constructed with the parameters `d` returns when it is fed
  the engine state `e`.  `UniformIntSpec` is what `<random>` promises of the integer
  distribution. No such promise is assumed of the real distribution, whose
  floating-point draws can be rounded up to the upper bound; `HalfOpenDraws`
  is only the condition on a run that its draws pass the post-assertions.
* `assert` is evaluated (no `NDEBUG`): a failing assertion aborts the call.
* The notices written to `std::cout` on a rebuild are left out, and so is the
  member `RandomGenerator::dist()`, which nothing in the file calls.
-/

namespace sferes.misc

/-! ## Outcomes -/

/-- The ways a call can stop without returning. -/
inductive Fault where
  /-- The precondition `assert(max > min)` failed. -/
  | max_gt_min
  /-- The postcondition `assert(v >= min)` failed. -/
  | v_ge_min
  /-- The postcondition `assert(v < max)` failed. -/
  | v_lt_max
  /-- The check `assert(k < a1.size())` of `rand_ind` failed. -/
  | k_lt_size
  /-- An iterator was advanced past the end: `++it` on `end()`, undefined behaviour. -/
  | past_the_end
  /-- The loop budget of the model was used up. -/
  | out_of_fuel
  deriving DecidableEq, Repr

/-- Outcome of a call on a state `σ`: a returned value with the new state, or a
fault with the state in which the call stopped. -/
inductive Result (σ α : Type) where
  | ok (val : α) (st : σ)
  | fail (f : Fault) (st : σ)
  deriving DecidableEq, Repr

/-- State in which the call ended. -/
def Result.state {σ α : Type} : Result σ α → σ
  | .ok _ st => st
  | .fail _ st => st

/-- Returned value, if the call returned. -/
def Result.value? {σ α : Type} : Result σ α → Option α
  | .ok v _ => some v
  | .fail _ _ => none

/-- A sequence of calls of `f` made one after the other in one thread; a fault
aborts the program, so the calls after it are not made. -/
def callsFrom {σ α β : Type} (f : α → σ → Result σ β) : List α → σ → σ
  | [], st => st
  | c :: cs, st =>
    match f c st with
    | .ok _ st1 => callsFrom f cs st1
    | .fail _ st1 => st1

/-! ## `RandomGenerator<D>` -/

/-- Parameters `(a, b)` a distribution object `D` was constructed with. -/
structure Dist (T : Type) where
  a : T
  b : T
  deriving DecidableEq, Repr

/-- The `std::mt19937` member: the index of the entropy-source seed it was
constructed from and the number of values drawn from it since. -/
structure Engine where
  seed : Nat
  draws : Nat
  deriving DecidableEq, Repr

/-- The members `_dist` and `_rgen` of `RandomGenerator<D>`. -/
structure RandomGenerator (T : Type) where
  _dist : Dist T
  _rgen : Engine
  deriving DecidableEq, Repr

/-- The constructor `RandomGenerator(a, b) : _dist(a, b), _rgen(auto_seed_128{}.base())`:
takes one seed from the entropy source, whose counter `entropy` it advances. -/
def RandomGenerator.init {T : Type} (a b : T) (entropy : Nat) : RandomGenerator T × Nat :=
  (⟨⟨a, b⟩, ⟨entropy, 0⟩⟩, entropy + 1)

/-- The member `rand()`: `return _dist(_rgen);`. The value is the one the
distribution yields on the current engine; the engine moves on. -/
def RandomGenerator.rand {T : Type} (ω : Dist T → Engine → T) (g : RandomGenerator T) :
    T × RandomGenerator T :=
  (ω g._dist g._rgen, { g with _rgen := { g._rgen with draws := g._rgen.draws + 1 } })

/-- What the standard promises of `std::uniform_int_distribution<int>(a, b)`:
a value of the closed range `[a, b]`. -/
def UniformIntSpec (ω : Dist Int → Engine → Int) : Prop :=
  ∀ d e, d.a ≤ d.b → d.a ≤ ω d e ∧ ω d e ≤ d.b

/-- A condition on a run, not a property of the library: every draw lies in the
half-open range `[a, b)` of the distribution it is made from, so that it passes
the post-assertions of `rand`. A floating-point `std::uniform_real_distribution`
does not guarantee it (it rounds `a + (b - a) * u`, which can give `b`, and `b - a`
can overflow), and `std::uniform_int_distribution` yields `b` itself. -/
def HalfOpenDraws {T : Type} [LinearOrder T] (ω : Dist T → Engine → T) : Prop :=
  ∀ d e, d.a < d.b → d.a ≤ ω d e ∧ ω d e < d.b

/-! ## `rand<T>(min, max)` and `rand<int>(min, max)` -/

/-- The three `static thread_local` variables of `rand`. -/
structure RandSlot (T : Type) where
  _min : T
  _max : T
  rgen : RandomGenerator T
  deriving DecidableEq, Repr

/-- The slot of one instantiation of `rand` in one thread, with the entropy
source's counter. -/
structure RandState (T : Type) where
  slot : Option (RandSlot T)
  entropy : Nat
  deriving DecidableEq, Repr

/-- The end of `rand`, once `v` is drawn and the slot is in state `st1`:
`assert(v >= min); assert(v < max); return v;`. -/
def rand.post {T : Type} [LinearOrder T] (min max v : T) (st1 : RandState T) :
    Result (RandState T) T :=
  if ¬ (v ≥ min) then .fail .v_ge_min st1 else
  if ¬ (v < max) then .fail .v_lt_max st1 else
  .ok v st1

/-- The generic `template <typename T> T rand(T min, T max)`. The values of `T`
are compared exactly (a linear order, no NaN). -/
def rand {T : Type} [LinearOrder T] (ω : Dist T → Engine → T) (min max : T)
    (st : RandState T) : Result (RandState T) T :=
  -- assert(max > min);
  if ¬ (max > min) then .fail .max_gt_min st else
  -- static thread_local T _min = min; T _max = max; rgen_t rgen(min, max);
  let init : RandSlot T × Nat :=
    match st.slot with
    | some sl => (sl, st.entropy)
    | none => (⟨min, max, (RandomGenerator.init min max st.entropy).1⟩,
               (RandomGenerator.init min max st.entropy).2)
  -- if (max != _max || min != _min) { _max = max; _min = min; rgen = rgen_t(_min, _max); }
  let cur : RandSlot T × Nat :=
    if max ≠ init.1._max ∨ min ≠ init.1._min then
      (⟨min, max, (RandomGenerator.init min max init.2).1⟩,
       (RandomGenerator.init min max init.2).2)
    else init
  -- T v = rgen.rand();
  let v : T := (cur.1.rgen.rand ω).1
  let st1 : RandState T := ⟨some { cur.1 with rgen := (cur.1.rgen.rand ω).2 }, cur.2⟩
  -- assert(v >= min); assert(v < max); return v;
  rand.post min max v st1

/-- The specialisation `template<> int rand<int>(int min, int max)`; only
comparisons are made on the `int`s, so they are taken in `Int`. -/
def rand_int (ω : Dist Int → Engine → Int) (min max : Int)
    (st : RandState Int) : Result (RandState Int) Int :=
  -- assert(max > min);
  if ¬ (max > min) then .fail .max_gt_min st else
  -- static thread_local int _min = min; int _max = max; rgen_t rgen(min, max);
  let init : RandSlot Int × Nat :=
    match st.slot with
    | some sl => (sl, st.entropy)
    | none => (⟨min, max, (RandomGenerator.init min max st.entropy).1⟩,
               (RandomGenerator.init min max st.entropy).2)
  -- if (max != _max || min != _min) { _max = max; _min = min; rgen = rgen_t(_min, _max); }
  let cur : RandSlot Int × Nat :=
    if max ≠ init.1._max ∨ min ≠ init.1._min then
      (⟨min, max, (RandomGenerator.init min max init.2).1⟩,
       (RandomGenerator.init min max init.2).2)
    else init
  -- int v = rgen.rand();
  let v : Int := (cur.1.rgen.rand ω).1
  let st1 : RandState Int := ⟨some { cur.1 with rgen := (cur.1.rgen.rand ω).2 }, cur.2⟩
  -- assert(v >= min); assert(v < max); return v;
  rand.post min max v st1

/-- The cached bounds are the parameters the slot's distribution was built with. -/
def RandSlot.inv {T : Type} (sl : RandSlot T) : Prop :=
  sl.rgen._dist = ⟨sl._min, sl._max⟩

/-- Every initialised slot satisfies `RandSlot.inv`. -/
def RandState.inv {T : Type} (st : RandState T) : Prop :=
  ∀ sl, st.slot = some sl → sl.inv

/-- Number of calls of a sequence whose bounds differ from the bounds of the
call made just before. -/
def boundChanges {T : Type} [DecidableEq T] : List (T × T) → Nat
  | c :: c1 :: cs => (if c1 ≠ c then 1 else 0) + boundChanges (c1 :: cs)
  | _ => 0

/-- The overload `template <typename T> T rand(T max = 1.0)`:
`return rand<T>((T)0.0, max);`. -/
def rand_max {T : Type} [LinearOrder T] [Zero T] (ω : Dist T → Engine → T) (max : T)
    (st : RandState T) : Result (RandState T) T :=
  rand ω 0 max st

/-- The function `flip_coin()`: `return rand<float>() < 0.5f;`, the call `rand<float>()`
being the one-argument overload with its default `max = 1.0`. A `float` is taken
as a rational (`0`, `1` and `0.5` are exact); a failed assertion of `rand` stops
`flip_coin` too. -/
def flip_coin (ω : Dist ℚ → Engine → ℚ) (st : RandState ℚ) : Result (RandState ℚ) Bool :=
  match rand_max ω 1 st with
  | .ok v st1 => .ok (decide (v < 1 / 2)) st1
  | .fail f st1 => .fail f st1

/-! ## `gaussian_rand<T>(m, v)` -/

/-- The three `static thread_local` variables of `gaussian_rand`. -/
structure GaussSlot (T : Type) where
  rgen : RandomGenerator T
  _m : T
  _v : T
  deriving DecidableEq, Repr

/-- The slot of one instantiation of `gaussian_rand` in one thread, with the
entropy source's counter. -/
structure GaussState (T : Type) where
  slot : Option (GaussSlot T)
  entropy : Nat
  deriving DecidableEq, Repr

/-- The function `gaussian_rand(m, v)`. The parameter `ne` is the `operator!=` of
the floating-point type `T` (for which `ne x x` holds exactly when `x` is a NaN). -/
def gaussian_rand {T : Type} (ne : T → T → Bool) (ω : Dist T → Engine → T) (m v : T)
    (st : GaussState T) : Result (GaussState T) T :=
  -- static thread_local rgen_t rgen(m, v); T _m = m; T _v = v;
  let init : GaussSlot T × Nat :=
    match st.slot with
    | some sl => (sl, st.entropy)
    | none => (⟨(RandomGenerator.init m v st.entropy).1, m, v⟩,
               (RandomGenerator.init m v st.entropy).2)
  -- if (v != v || _m != m) { _m = m; _v = v; rgen = rgen_t(m, v); }
  let cur : GaussSlot T × Nat :=
    if ne v v || ne init.1._m m then
      (⟨(RandomGenerator.init m v init.2).1, m, v⟩, (RandomGenerator.init m v init.2).2)
    else init
  -- T val = rgen.rand(); return val;
  .ok (cur.1.rgen.rand ω).1 ⟨some { cur.1 with rgen := (cur.1.rgen.rand ω).2 }, cur.2⟩

/-- The cached pair is the pair the slot's distribution was built with. -/
def GaussSlot.inv {T : Type} (sl : GaussSlot T) : Prop :=
  sl.rgen._dist = ⟨sl._m, sl._v⟩

/-- Every initialised slot satisfies `GaussSlot.inv`. -/
def GaussState.inv {T : Type} (st : GaussState T) : Prop :=
  ∀ sl, st.slot = some sl → sl.inv

/-- A floating-point value for concrete runs: a rational, or `none` for NaN. -/
abbrev Flt := Option ℚ

/-- The `operator!=` of `Flt`: a NaN differs from everything, itself included. -/
def Flt.ne : Flt → Flt → Bool
  | some x, some y => decide (x ≠ y)
  | _, _ => true

/-! ## `rand_ind(a1, size)` -/

/-- The call `std::swap(a1[i], a1[k])`. -/
def swap (a1 : List Nat) (i k : Nat) : List Nat :=
  (a1.set i (a1.getD k 0)).set k (a1.getD i 0)

/-- The call `a1.resize(size)`: cut to `size` elements, or padded with zeros. -/
def resize (a1 : List Nat) (size : Nat) : List Nat :=
  a1.take size ++ List.replicate (size - a1.length) 0

/-- The first loop of `rand_ind`, from index `i` on:
`for (; i < a1.size(); ++i) a1[i] = i;`. -/
def rand_ind.fill : Nat → Nat → List Nat → Option (List Nat)
  | fuel, i, a1 =>
    if i < a1.length then
      match fuel with
      | 0 => none
      | fuel + 1 => rand_ind.fill fuel (i + 1) (a1.set i i)
    else some a1

/-- The second loop of `rand_ind`, from index `i` on:
`for (; i < a1.size(); ++i) { k = rand(i, a1.size()); assert(k < a1.size()); swap }`.
The call `rand(i, a1.size())` is the generic `rand<T>` at `T = size_t`. -/
def rand_ind.shuffle (ω : Dist Nat → Engine → Nat) :
    Nat → Nat → List Nat → RandState Nat → Result (RandState Nat) (List Nat)
  | fuel, i, a1, st =>
    if i < a1.length then
      match fuel with
      | 0 => .fail .out_of_fuel st
      | fuel + 1 =>
        match rand ω i a1.length st with
        | .fail f st1 => .fail f st1
        | .ok k st1 =>
          if ¬ (k < a1.length) then .fail .k_lt_size st1 else
          rand_ind.shuffle ω fuel (i + 1) (swap a1 i k) st1
    else .ok a1 st

/-- The function `rand_ind(a1, size)`; the result is the final content of `a1`.
Each loop gets `size` iterations of budget, one per index. -/
def rand_ind (ω : Dist Nat → Engine → Nat) (a1 : List Nat) (size : Nat)
    (st : RandState Nat) : Result (RandState Nat) (List Nat) :=
  match rand_ind.fill size 0 (resize a1 size) with
  | none => .fail .out_of_fuel st
  | some a2 => rand_ind.shuffle ω size 0 a2 st

/-- The distribution behaviour under which the draw made from a distribution
with lower bound `i` is `k i`: in `rand_ind` the `i`-th draw is then `k i`. -/
def drawsOf (k : Nat → Nat) : Dist Nat → Engine → Nat :=
  fun d _ => k d.a

/-- The draws `k 0, k 1, ...` that `rand_ind` accepts for size `n`: the `i`-th one
lies in `[i, n)`. -/
def ValidDraws (n : Nat) (k : Nat → Nat) : Prop :=
  ∀ i, i < n → i ≤ k i ∧ k i < n

/-- The swaps the second loop of `rand_ind` makes from index `i` on when its
draws are `k i, k (i + 1), ...`. -/
def shuffleBy (k : Nat → Nat) : Nat → Nat → List Nat → List Nat
  | 0, _, a => a
  | fuel + 1, i, a => if i < a.length then shuffleBy k fuel (i + 1) (swap a i (k i)) else a

/-- The arrays the shuffle works on: the `n` values below `n`, each once. -/
def IsPermOfRange (n : Nat) (a : List Nat) : Prop :=
  a.length = n ∧ a.Nodup ∧ ∀ x ∈ a, x < n

/-! ## `rand_in_list(l)` and `rand_l(l)` -/

/-- The only `static thread_local` variable of `rand_in_list` and of `rand_l`:
`rgen`, constructed by the first call. -/
structure ListState where
  rgen : Option (RandomGenerator Int)
  entropy : Nat
  deriving DecidableEq, Repr

/-- Conversion of `l.size()` (a `size_t`) to the `int` parameter of the
distribution's constructor: reduction modulo `2^32` into `[-2^31, 2^31)`. -/
def int_of_size (n : Nat) : Int :=
  ((n : Int) + 2 ^ 31) % 2 ^ 32 - 2 ^ 31

/-- Conversion of the `int k` to `size_t` in the comparison `i < k` of `rand_l`. -/
def size_of_int (k : Int) : Nat :=
  (k % 2 ^ 64).toNat

/-- Application of `++it` `steps` times to the iterator at position `it` of a
container of `len` elements; position `len` is `end()`, which cannot be advanced. -/
def advance (len : Nat) : Nat → Nat → Option Nat
  | 0, it => some it
  | steps + 1, it => if it < len then advance len steps (it + 1) else none

/-- The function `rand_in_list(l)`; the iterator returned is given by its position
in `l`, and position `l.length` is `l.end()`. -/
def rand_in_list {α : Type} (ω : Dist Int → Engine → Int) (l : List α)
    (st : ListState) : Result ListState Nat :=
  -- static thread_local rgen_t rgen(0, l.size());
  let init : RandomGenerator Int × Nat :=
    match st.rgen with
    | some g => (g, st.entropy)
    | none => RandomGenerator.init 0 (int_of_size l.length) st.entropy
  -- int n = rgen.rand();
  let n : Int := (init.1.rand ω).1
  let st1 : ListState := ⟨some (init.1.rand ω).2, init.2⟩
  -- it = l.begin(); for (int i = 0; i < n; ++i) ++it; return it;
  match advance l.length n.toNat 0 with
  | some it => .ok it st1
  | none => .fail .past_the_end st1

/-- The function `rand_l(l)`; as `rand_in_list`, but the loop counter is a
`size_t`, to which `k` is converted by the comparison. -/
def rand_l {α : Type} (ω : Dist Int → Engine → Int) (l : List α)
    (st : ListState) : Result ListState Nat :=
  -- static thread_local rgen_t rgen(0, l.size());
  let init : RandomGenerator Int × Nat :=
    match st.rgen with
    | some g => (g, st.entropy)
    | none => RandomGenerator.init 0 (int_of_size l.length) st.entropy
  -- int k = rgen.rand();
  let k : Int := (init.1.rand ω).1
  let st1 : ListState := ⟨some (init.1.rand ω).2, init.2⟩
  -- it = l.begin(); for (size_t i = 0; i < k; ++i) ++it; return it;
  match advance l.length (size_of_int k) 0 with
  | some it => .ok it st1
  | none => .fail .past_the_end st1

/-! # Theorems -/

/-! ## Shared lemmas on the uniform slots -/

theorem rand_int_eq_rand (ω : Dist Int → Engine → Int) (min max : Int) (st : RandState Int) :
    rand_int ω min max st = rand ω min max st := by
  rcases st with ⟨_ | sl, e⟩
  · by_cases h : min < max <;> simp [rand_int, rand, h]
  · by_cases h : min < max
    · by_cases h1 : max ≠ sl._max ∨ min ≠ sl._min
      · simp [rand_int, rand, h, h1]
      · simp [rand_int, rand, h, h1]
    · simp [rand_int, rand, h]

theorem rand_of_not_lt {T : Type} [LinearOrder T] (ω : Dist T → Engine → T) (min max : T)
    (st : RandState T) (h : ¬ min < max) : rand ω min max st = .fail .max_gt_min st := by
  simp [rand, h]

theorem rand_first {T : Type} [LinearOrder T] (ω : Dist T → Engine → T) (min max : T)
    (e : Nat) (h : min < max) :
    rand ω min max ⟨none, e⟩ =
      rand.post min max (ω ⟨min, max⟩ ⟨e, 0⟩)
        ⟨some ⟨min, max, ⟨⟨min, max⟩, ⟨e, 1⟩⟩⟩, e + 1⟩ := by
  simp [rand, h, RandomGenerator.init, RandomGenerator.rand]

theorem rand_rebuild {T : Type} [LinearOrder T] (ω : Dist T → Engine → T) (min max : T)
    (sl : RandSlot T) (e : Nat) (h : min < max) (hne : max ≠ sl._max ∨ min ≠ sl._min) :
    rand ω min max ⟨some sl, e⟩ =
      rand.post min max (ω ⟨min, max⟩ ⟨e, 0⟩)
        ⟨some ⟨min, max, ⟨⟨min, max⟩, ⟨e, 1⟩⟩⟩, e + 1⟩ := by
  simp [rand, h, RandomGenerator.init, RandomGenerator.rand, hne]

theorem rand_cached {T : Type} [LinearOrder T] (ω : Dist T → Engine → T) (min max : T)
    (sl : RandSlot T) (e : Nat) (h : min < max) (hmax : max = sl._max) (hmin : min = sl._min) :
    rand ω min max ⟨some sl, e⟩ =
      rand.post min max (ω sl.rgen._dist sl.rgen._rgen)
        ⟨some { sl with
            rgen := ⟨sl.rgen._dist, ⟨sl.rgen._rgen.seed, sl.rgen._rgen.draws + 1⟩⟩ }, e⟩ := by
  subst hmax hmin
  simp [rand, h, RandomGenerator.rand]

theorem rand_post_state {T : Type} [LinearOrder T] (min max v : T) (st1 : RandState T) :
    (rand.post min max v st1).state = st1 := by
  unfold rand.post
  split_ifs <;> rfl

theorem rand_post_ok {T : Type} [LinearOrder T] (min max v : T) (st1 : RandState T)
    (h1 : min ≤ v) (h2 : v < max) : rand.post min max v st1 = .ok v st1 := by
  simp [rand.post, h1, h2]

/-- On a slot that satisfies the invariant, a call that passes its
precondition draws from the distribution built with the requested bounds, and
leaves a slot that caches them and satisfies the invariant. -/
theorem rand_draw {T : Type} [LinearOrder T] (ω : Dist T → Engine → T) (min max : T)
    (st : RandState T) (hst : st.inv) (h : min < max) :
    ∃ (en : Engine) (g : RandomGenerator T) (e1 : Nat),
      g._dist = ⟨min, max⟩ ∧ st.entropy ≤ e1 ∧
      rand ω min max st = rand.post min max (ω ⟨min, max⟩ en) ⟨some ⟨min, max, g⟩, e1⟩ := by
  rcases st with ⟨_ | sl, e⟩
  · exact ⟨_, _, _, rfl, Nat.le_succ e, rand_first ω min max e h⟩
  · by_cases hne : max ≠ sl._max ∨ min ≠ sl._min
    · exact ⟨_, _, _, rfl, Nat.le_succ e, rand_rebuild ω min max sl e h hne⟩
    · push_neg at hne
      have hd : sl.rgen._dist = ⟨min, max⟩ := by
        have := hst sl rfl
        rw [RandSlot.inv] at this
        rw [this, hne.1, hne.2]
      refine ⟨sl.rgen._rgen,
        ⟨sl.rgen._dist, ⟨sl.rgen._rgen.seed, sl.rgen._rgen.draws + 1⟩⟩, e, hd, le_refl _, ?_⟩
      rw [rand_cached ω min max sl e h hne.1 hne.2, hd, ← hne.1, ← hne.2]

theorem rand_state_inv {T : Type} [LinearOrder T] (ω : Dist T → Engine → T) (min max : T)
    (st : RandState T) (hst : st.inv) : (rand ω min max st).state.inv := by
  by_cases h : min < max
  · obtain ⟨en, g, e1, hg, -, hr⟩ := rand_draw ω min max st hst h
    rw [hr, rand_post_state]
    intro sl hsl
    cases hsl
    exact hg
  · rw [rand_of_not_lt ω min max st h]
    exact hst

theorem gaussian_rand_state_inv {T : Type} (ne : T → T → Bool) (ω : Dist T → Engine → T)
    (m v : T) (st : GaussState T) (hst : st.inv) : (gaussian_rand ne ω m v st).state.inv := by
  rcases st with ⟨_ | sl, e⟩
  · intro sl1 hsl1
    by_cases hne : (ne v v || ne m m) = true <;>
      simp [gaussian_rand, Result.state, hne, RandomGenerator.init, RandomGenerator.rand] at hsl1 <;>
      subst hsl1 <;> rfl
  · intro sl1 hsl1
    have h0 := hst sl rfl
    by_cases hne : (ne v v || ne sl._m m) = true
    · simp [gaussian_rand, Result.state, hne, RandomGenerator.init, RandomGenerator.rand] at hsl1
      subst hsl1
      rfl
    · simp [gaussian_rand, Result.state, hne, RandomGenerator.rand] at hsl1
      subst hsl1
      exact h0

theorem callsFrom_invariant {σ α β : Type} (f : α → σ → Result σ β) (P : σ → Prop)
    (hf : ∀ c st, P st → P (f c st).state) (cs : List α) (st : σ) (h : P st) :
    P (callsFrom f cs st) := by
  induction cs generalizing st with
  | nil => exact h
  | cons c cs ih =>
    have h1 := hf c st h
    unfold callsFrom
    cases hr : f c st with
    | ok v st1 =>
      rw [hr] at h1
      exact ih st1 h1
    | fail x st1 =>
      rw [hr] at h1
      exact h1

theorem RandState.inv_none {T : Type} (e : Nat) : (⟨none, e⟩ : RandState T).inv := by
  intro sl hsl
  cases hsl

/-! ## The uniform draws -/

/-- C1 (fails on the code): `std::uniform_int_distribution<int>(0, 1)` may yield `1`, and
with that draw the first call `rand<int>(0, 1)` stops at `assert(v < max)` instead
of returning `0`. -/
theorem rand_int_draws_max :
    UniformIntSpec (fun d _ => d.b) ∧
    rand_int (fun d _ => d.b) 0 1 ⟨none, 0⟩ =
      .fail .v_lt_max ⟨some ⟨0, 1, ⟨⟨0, 1⟩, ⟨0, 1⟩⟩⟩, 1⟩ :=
  ⟨fun _ _ h => ⟨h, le_refl _⟩, by decide⟩

/-- C2 (fails on the code): `1` and `1 + 2^-23` are neighbouring `float`s. The distribution
computes `a + (b - a) * u` and rounds it; for the largest `u` below `1`, namely
`1 - 2^-24`, the exact value lies nearer to `max = 1 + 2^-23` than to `min = 1`, so
the draw is `max`. With that draw the first call `rand<float>(1, 1 + 2^-23)`, whose
bounds pass `assert(max > min)`, stops at its own `assert(v < max)`. -/
theorem rand_real_draws_max :
    ((1 : ℚ) < 1 + 1 / 2 ^ 23) ∧
    ((1 + 1 / 2 ^ 23 : ℚ) - (1 + 1 / 2 ^ 23 * (1 - 1 / 2 ^ 24)) <
      (1 + 1 / 2 ^ 23 * (1 - 1 / 2 ^ 24)) - 1) ∧
    rand (fun (d : Dist ℚ) (_ : Engine) => d.b) 1 (1 + 1 / 2 ^ 23) ⟨none, 0⟩ =
      .fail .v_lt_max
        ⟨some ⟨1, 1 + 1 / 2 ^ 23, ⟨⟨1, 1 + 1 / 2 ^ 23⟩, ⟨0, 1⟩⟩⟩, 1⟩ := by
  refine ⟨by norm_num, by norm_num, ?_⟩
  rw [rand_first _ _ _ 0 (by norm_num)]
  have h1 : (1 : ℚ) ≤ 1 + 1 / 2 ^ 23 := by norm_num
  simp [rand.post, h1]

/-- C3: a call `rand(min, max)` resp. `rand<int>(min, max)` with `min < max` on a
slot that caches other bounds draws its value from a newly built generator whose
distribution has the parameters `(min, max)`, and leaves `(min, max)` cached (also
when a post-assertion stops the call). -/
theorem rand_new_bounds_used :
    (∀ {T : Type} [LinearOrder T] (ω : Dist T → Engine → T) (min max : T)
        (sl : RandSlot T) (e : Nat), min < max → (min, max) ≠ (sl._min, sl._max) →
      rand ω min max ⟨some sl, e⟩ =
        rand.post min max (ω ⟨min, max⟩ ⟨e, 0⟩)
          ⟨some ⟨min, max, ⟨⟨min, max⟩, ⟨e, 1⟩⟩⟩, e + 1⟩ ∧
      (rand ω min max ⟨some sl, e⟩).state.slot =
        some ⟨min, max, ⟨⟨min, max⟩, ⟨e, 1⟩⟩⟩) ∧
    (∀ (ω : Dist Int → Engine → Int) (min max : Int)
        (sl : RandSlot Int) (e : Nat), min < max → (min, max) ≠ (sl._min, sl._max) →
      rand_int ω min max ⟨some sl, e⟩ =
        rand.post min max (ω ⟨min, max⟩ ⟨e, 0⟩)
          ⟨some ⟨min, max, ⟨⟨min, max⟩, ⟨e, 1⟩⟩⟩, e + 1⟩ ∧
      (rand_int ω min max ⟨some sl, e⟩).state.slot =
        some ⟨min, max, ⟨⟨min, max⟩, ⟨e, 1⟩⟩⟩) := by
  have key : ∀ {T : Type} [LinearOrder T] (ω : Dist T → Engine → T) (min max : T)
      (sl : RandSlot T) (e : Nat), min < max → (min, max) ≠ (sl._min, sl._max) →
      rand ω min max ⟨some sl, e⟩ =
        rand.post min max (ω ⟨min, max⟩ ⟨e, 0⟩)
          ⟨some ⟨min, max, ⟨⟨min, max⟩, ⟨e, 1⟩⟩⟩, e + 1⟩ := by
    intro T _ ω min max sl e h hne
    apply rand_rebuild ω min max sl e h
    by_contra hc
    push_neg at hc
    exact hne (by rw [hc.1, hc.2])
  refine ⟨fun ω min max sl e h hne => ⟨key ω min max sl e h hne, ?_⟩,
    fun ω min max sl e h hne => ⟨?_, ?_⟩⟩
  · rw [key ω min max sl e h hne, rand_post_state]
  · rw [rand_int_eq_rand, key ω min max sl e h hne]
  · rw [rand_int_eq_rand, key ω min max sl e h hne, rand_post_state]

theorem rand_new_bounds_used_witness :
    (5 : Int) < 20 ∧ ((5 : Int), (20 : Int)) ≠ (0, 10) ∧
    rand_int (fun d _ => d.a) 5 20 ⟨some ⟨0, 10, ⟨⟨0, 10⟩, ⟨0, 1⟩⟩⟩, 1⟩ =
      rand.post 5 20 5 ⟨some ⟨5, 20, ⟨⟨5, 20⟩, ⟨1, 1⟩⟩⟩, 2⟩ ∧
    (rand_int (fun d _ => d.a) 5 20 ⟨some ⟨0, 10, ⟨⟨0, 10⟩, ⟨0, 1⟩⟩⟩, 1⟩).state.slot =
      some ⟨5, 20, ⟨⟨5, 20⟩, ⟨1, 1⟩⟩⟩ :=
  ⟨by decide, by decide,
    rand_new_bounds_used.2 (fun d _ => d.a) 5 20 ⟨0, 10, ⟨⟨0, 10⟩, ⟨0, 1⟩⟩⟩ 1
      (by decide) (by decide)⟩

/-- C4: after any sequence of calls made on a slot from its uninitialised state,
the cached pair `(_min, _max)` of `rand<T>` and of `rand<int>`, and the cached pair
`(_m, _v)` of `gaussian_rand<T>`, is the pair the slot's current distribution was
constructed with. -/
theorem cached_parameters_are_distribution_parameters :
    (∀ {T : Type} [LinearOrder T] (ω : Dist T → Engine → T) (calls : List (T × T)) (e : Nat),
      (callsFrom (fun c st => rand ω c.1 c.2 st) calls ⟨none, e⟩).inv) ∧
    (∀ (ω : Dist Int → Engine → Int) (calls : List (Int × Int)) (e : Nat),
      (callsFrom (fun c st => rand_int ω c.1 c.2 st) calls ⟨none, e⟩).inv) ∧
    (∀ {T : Type} (ne : T → T → Bool) (ω : Dist T → Engine → T) (calls : List (T × T))
        (e : Nat),
      (callsFrom (fun c st => gaussian_rand ne ω c.1 c.2 st) calls ⟨none, e⟩).inv) := by
  refine ⟨fun ω calls e => ?_, fun ω calls e => ?_, fun ne ω calls e => ?_⟩
  · exact callsFrom_invariant _ RandState.inv
      (fun c st h => rand_state_inv ω c.1 c.2 st h) calls _ (RandState.inv_none e)
  · refine callsFrom_invariant _ RandState.inv
      (fun c st h => ?_) calls _ (RandState.inv_none e)
    rw [rand_int_eq_rand]
    exact rand_state_inv ω c.1 c.2 st h
  · refine callsFrom_invariant _ GaussState.inv
      (fun c st h => gaussian_rand_state_inv ne ω c.1 c.2 st h) calls _ ?_
    intro sl hsl
    cases hsl

/-! ## Seeding -/

theorem rand_calls_entropy {T : Type} [LinearOrder T] (ω : Dist T → Engine → T)
    (hω : HalfOpenDraws ω) (cs : List (T × T)) :
    ∀ (sl : RandSlot T) (e : Nat), sl.inv → (∀ x ∈ cs, x.1 < x.2) →
      (callsFrom (fun c st => rand ω c.1 c.2 st) cs ⟨some sl, e⟩).entropy =
        e + boundChanges ((sl._min, sl._max) :: cs) := by
  induction cs with
  | nil => intro sl e _ _; simp [callsFrom, boundChanges]
  | cons c cs ih =>
    intro sl e hsl hcs
    have hc : c.1 < c.2 := hcs c (List.mem_cons_self _ _)
    have hcs1 : ∀ x ∈ cs, x.1 < x.2 := fun x hx => hcs x (List.mem_cons_of_mem _ hx)
    by_cases hne : c.2 ≠ sl._max ∨ c.1 ≠ sl._min
    · have hv := hω ⟨c.1, c.2⟩ ⟨e, 0⟩ hc
      have hr := rand_rebuild ω c.1 c.2 sl e hc hne
      rw [rand_post_ok _ _ _ _ hv.1 hv.2] at hr
      have hcne : c ≠ (sl._min, sl._max) := by
        intro hcc
        rw [hcc] at hne
        simp at hne
      simp only [callsFrom, hr]
      rw [ih ⟨c.1, c.2, ⟨⟨c.1, c.2⟩, ⟨e, 1⟩⟩⟩ (e + 1) rfl hcs1]
      simp [boundChanges, hcne]
      omega
    · push_neg at hne
      have hd : sl.rgen._dist = ⟨c.1, c.2⟩ := by
        rw [hsl, hne.1, hne.2]
      have hv := hω ⟨c.1, c.2⟩ sl.rgen._rgen hc
      have hr := rand_cached ω c.1 c.2 sl e hc hne.1 hne.2
      rw [hd, rand_post_ok _ _ _ _ hv.1 hv.2] at hr
      have hcc : c = (sl._min, sl._max) := by
        rw [← hne.1, ← hne.2]
      simp only [callsFrom, hr]
      rw [ih _ e (by simp [RandSlot.inv, hne.1, hne.2]) hcs1]
      simp [boundChanges, hcc]

theorem rand_calls_entropy_first {T : Type} [LinearOrder T] (ω : Dist T → Engine → T)
    (hω : HalfOpenDraws ω) (c : T × T) (cs : List (T × T)) (e : Nat)
    (h : ∀ x ∈ c :: cs, x.1 < x.2) :
    (callsFrom (fun c st => rand ω c.1 c.2 st) (c :: cs) ⟨none, e⟩).entropy =
      e + 1 + boundChanges (c :: cs) := by
  have hc : c.1 < c.2 := h c (List.mem_cons_self _ _)
  have hv := hω ⟨c.1, c.2⟩ ⟨e, 0⟩ hc
  have hr := rand_first ω c.1 c.2 e hc
  rw [rand_post_ok _ _ _ _ hv.1 hv.2] at hr
  simp only [callsFrom, hr]
  exact rand_calls_entropy ω hω cs ⟨c.1, c.2, ⟨⟨c.1, c.2⟩, ⟨e, 1⟩⟩⟩ (e + 1) rfl
    (fun x hx => h x (List.mem_cons_of_mem _ hx))

/-- C5 (as stated, fails on the code): `rand<int>(0, 10)` followed by `rand<int>(5, 20)` on a
fresh slot takes two seeds from the entropy source, and the second call draws
from a new engine (seed number 1, one value drawn), not from the engine of the
first call. -/
theorem rebuild_seeds_again :
    callsFrom (fun c st => rand_int (fun d _ => d.a) c.1 c.2 st) [(0, 10), (5, 20)] ⟨none, 0⟩ =
      ⟨some ⟨5, 20, ⟨⟨5, 20⟩, ⟨1, 1⟩⟩⟩, 2⟩ ∧
    (callsFrom (fun c st => rand_int (fun d _ => d.a) c.1 c.2 st) [(0, 10), (5, 20)]
      ⟨none, 0⟩).entropy ≠ 0 + 1 := by
  decide

/-- C5 (amended): every slot seeds an engine when its first call initialises it,
and again in each call that rebuilds: the rebuild assigns a newly constructed
`RandomGenerator`, whose engine (newly seeded, nothing drawn yet) replaces the
existing one. Over `n >= 1` returning calls a uniform slot takes `1 + c` seeds, `c`
being the number of calls whose bounds differ from those of the call before;
`gaussian_rand` seeds once more in a call with `v != v` or a mean other than the
cached one; `rand_in_list` and `rand_l` never rebuild. -/
theorem seeds_drawn :
    (∀ {T : Type} [LinearOrder T] (ω : Dist T → Engine → T), HalfOpenDraws ω →
      ∀ (c : T × T) (cs : List (T × T)) (e : Nat), (∀ x ∈ c :: cs, x.1 < x.2) →
      (callsFrom (fun c st => rand ω c.1 c.2 st) (c :: cs) ⟨none, e⟩).entropy =
        e + 1 + boundChanges (c :: cs)) ∧
    (∀ (ω : Dist Int → Engine → Int), HalfOpenDraws ω →
      ∀ (c : Int × Int) (cs : List (Int × Int)) (e : Nat), (∀ x ∈ c :: cs, x.1 < x.2) →
      (callsFrom (fun c st => rand_int ω c.1 c.2 st) (c :: cs) ⟨none, e⟩).entropy =
        e + 1 + boundChanges (c :: cs)) ∧
    (∀ {T : Type} [LinearOrder T] (ω : Dist T → Engine → T) (min max : T)
        (sl : RandSlot T) (e : Nat), min < max → (min, max) ≠ (sl._min, sl._max) →
      (rand ω min max ⟨some sl, e⟩).state =
        ⟨some ⟨min, max, ⟨⟨min, max⟩, ⟨e, 1⟩⟩⟩, e + 1⟩) ∧
    (∀ {T : Type} (ne : T → T → Bool) (ω : Dist T → Engine → T) (m v : T)
        (sl : GaussSlot T) (e : Nat),
      (gaussian_rand ne ω m v ⟨some sl, e⟩).state.entropy =
        e + (if ne v v || ne sl._m m then 1 else 0) ∧
      (gaussian_rand ne ω m v ⟨none, e⟩).state.entropy =
        e + 1 + (if ne v v || ne m m then 1 else 0)) ∧
    (∀ {α : Type} (ω : Dist Int → Engine → Int) (l : List α) (st : ListState),
      (rand_in_list ω l st).state.entropy = st.entropy + (if st.rgen = none then 1 else 0) ∧
      (rand_l ω l st).state.entropy = st.entropy + (if st.rgen = none then 1 else 0)) := by
  refine ⟨fun ω hω c cs e h => rand_calls_entropy_first ω hω c cs e h,
    fun ω hω c cs e h => ?_, fun ω min max sl e h hne => ?_, fun ne ω m v sl e => ?_,
    fun ω l st => ?_⟩
  · have := rand_calls_entropy_first ω hω c cs e h
    simpa only [rand_int_eq_rand] using this
  · rw [rand_rebuild ω min max sl e h, rand_post_state]
    by_contra hc
    push_neg at hc
    exact hne (by rw [hc.1, hc.2])
  · constructor
    · by_cases hne : (ne v v || ne sl._m m) = true <;>
        simp [gaussian_rand, Result.state, hne, RandomGenerator.init]
    · by_cases hne : (ne v v || ne m m) = true <;>
        simp [gaussian_rand, Result.state, hne, RandomGenerator.init]
  · rcases st with ⟨_ | g, e⟩
    · constructor
      · simp only [rand_in_list]
        split <;> simp [Result.state, RandomGenerator.init]
      · simp only [rand_l]
        split <;> simp [Result.state, RandomGenerator.init]
    · constructor
      · simp only [rand_in_list]
        split <;> simp [Result.state]
      · simp only [rand_l]
        split <;> simp [Result.state]

theorem seeds_drawn_witness :
    HalfOpenDraws (fun (d : Dist Int) (_ : Engine) => d.a) ∧
    (∀ x ∈ [((0 : Int), (10 : Int)), (5, 20), (5, 20), (0, 10)], x.1 < x.2) ∧
    (callsFrom (fun c st => rand_int (fun d _ => d.a) c.1 c.2 st)
        [(0, 10), (5, 20), (5, 20), (0, 10)] ⟨none, 0⟩).entropy =
      0 + 1 + boundChanges [((0 : Int), (10 : Int)), (5, 20), (5, 20), (0, 10)] :=
  ⟨fun _ _ h => ⟨le_refl _, h⟩, by decide,
    seeds_drawn.2.1 (fun d _ => d.a) (fun _ _ h => ⟨le_refl _, h⟩) (0, 10)
      [(5, 20), (5, 20), (0, 10)] 0 (by decide)⟩

/-! ## The precondition -/

/-- C10: with `min >= max` the calls `rand<T>(min, max)` and `rand<int>(min, max)` stop
at `assert(max > min)` in the very state they were called in (slot, distribution,
engine and entropy source untouched, nothing drawn); with `min < max` that
assertion does not fail. -/
theorem rand_precondition :
    (∀ {T : Type} [LinearOrder T] (ω : Dist T → Engine → T) (min max : T) (st : RandState T),
      (max ≤ min → rand ω min max st = .fail .max_gt_min st) ∧
      (min < max → ∀ st1, rand ω min max st ≠ .fail .max_gt_min st1)) ∧
    (∀ (ω : Dist Int → Engine → Int) (min max : Int) (st : RandState Int),
      (max ≤ min → rand_int ω min max st = .fail .max_gt_min st) ∧
      (min < max → ∀ st1, rand_int ω min max st ≠ .fail .max_gt_min st1)) := by
  have key : ∀ {T : Type} [LinearOrder T] (ω : Dist T → Engine → T) (min max : T)
      (st : RandState T),
      (max ≤ min → rand ω min max st = .fail .max_gt_min st) ∧
      (min < max → ∀ st1, rand ω min max st ≠ .fail .max_gt_min st1) := by
    intro T _ ω min max st
    refine ⟨fun h => rand_of_not_lt ω min max st (not_lt.mpr h), fun h st1 => ?_⟩
    simp only [rand, rand.post, gt_iff_lt, h, not_true_eq_false, if_false]
    split_ifs <;> simp
  refine ⟨key, fun ω min max st => ?_⟩
  rw [rand_int_eq_rand]
  exact key ω min max st

theorem rand_precondition_witness :
    ((3 : Int) ≤ 3 ∧
      rand_int (fun d _ => d.a) 3 3 ⟨some ⟨0, 10, ⟨⟨0, 10⟩, ⟨0, 1⟩⟩⟩, 1⟩ =
        .fail .max_gt_min ⟨some ⟨0, 10, ⟨⟨0, 10⟩, ⟨0, 1⟩⟩⟩, 1⟩) ∧
    ((3 : Int) < 4 ∧
      ∀ st1, rand_int (fun d _ => d.a) 3 4 ⟨none, 0⟩ ≠ .fail .max_gt_min st1) :=
  ⟨⟨by decide, (rand_precondition.2 (fun d _ => d.a) 3 3 _).1 (by decide)⟩,
    ⟨by decide, (rand_precondition.2 (fun d _ => d.a) 3 4 _).2 (by decide)⟩⟩

/-! ## Lists as arrays: `swap`, `resize` and the filling loop -/

theorem length_swap (a : List Nat) (i k : Nat) : (swap a i k).length = a.length := by
  simp [swap]

theorem getElem?_swap (a : List Nat) (i k j : Nat) (hi : i < a.length) (hk : k < a.length) :
    (swap a i k)[j]? = if j = k then a[i]? else if j = i then a[k]? else a[j]? := by
  unfold swap
  rw [List.getElem?_set, List.getElem?_set]
  by_cases hjk : k = j
  · subst hjk
    simp [hk, hi]
  · have hjk1 : ¬ j = k := fun h => hjk h.symm
    by_cases hji : i = j
    · subst hji
      simp [hjk, hjk1, hk, hi]
    · have hji1 : ¬ j = i := fun h => hji h.symm
      simp [hjk, hjk1, hji, hji1]

theorem length_resize (a : List Nat) (n : Nat) : (resize a n).length = n := by
  simp [resize]
  omega

theorem nodup_getElem?_inj {a : List Nat} (h : a.Nodup) {x y : Nat} (hx : x < a.length)
    (hxy : a[x]? = a[y]?) : x = y := by
  have hy : y < a.length := by
    by_contra hc
    rw [List.getElem?_eq_none (not_lt.mp hc), List.getElem?_eq_getElem hx] at hxy
    cases hxy
  rw [List.nodup_iff_getElem?_ne_getElem?] at h
  rcases Nat.lt_trichotomy x y with hlt | heq | hgt
  · exact absurd hxy (h x y hlt hy)
  · exact heq
  · exact absurd hxy.symm (h y x hgt hx)

theorem IsPermOfRange.perm {n : Nat} {a : List Nat} (h : IsPermOfRange n a) :
    a.Perm (List.range n) := by
  obtain ⟨hl, hn, hm⟩ := h
  apply List.Subperm.perm_of_length_le
  · exact List.subperm_of_subset hn (fun x hx => List.mem_range.mpr (hm x hx))
  · simp [hl]

theorem isPermOfRange_of_perm {n : Nat} {a : List Nat} (h : a.Perm (List.range n)) :
    IsPermOfRange n a :=
  ⟨by simpa using h.length_eq, h.nodup_iff.mpr (List.nodup_range n),
    fun x hx => List.mem_range.mp (h.mem_iff.mp hx)⟩

theorem mem_swap (a : List Nat) (i k : Nat) (hi : i < a.length) (hk : k < a.length) (x : Nat) :
    x ∈ swap a i k ↔ x ∈ a := by
  simp only [List.mem_iff_getElem?]
  constructor
  · rintro ⟨j, hj⟩
    rw [getElem?_swap a i k j hi hk] at hj
    split_ifs at hj
    · exact ⟨i, hj⟩
    · exact ⟨k, hj⟩
    · exact ⟨j, hj⟩
  · rintro ⟨j, hj⟩
    by_cases hji : j = i
    · refine ⟨k, ?_⟩
      rw [getElem?_swap a i k k hi hk]
      simp [← hji, hj]
    · by_cases hjk : j = k
      · refine ⟨i, ?_⟩
        rw [getElem?_swap a i k i hi hk]
        subst hjk
        by_cases hij : i = j <;> simp [hij, hj]
      · refine ⟨j, ?_⟩
        rw [getElem?_swap a i k j hi hk]
        simp [hji, hjk, hj]

theorem nodup_swap (a : List Nat) (i k : Nat) (hi : i < a.length) (hk : k < a.length)
    (h : a.Nodup) : (swap a i k).Nodup := by
  rw [List.nodup_iff_getElem?_ne_getElem?]
  intro x y hxy hy
  rw [length_swap] at hy
  have hx : x < a.length := lt_trans hxy hy
  rw [getElem?_swap a i k x hi hk, getElem?_swap a i k y hi hk]
  intro he
  split_ifs at he with h1 h2 h3 h4 h5 h6 h7 h8
  all_goals
    first
    | omega
    | exact absurd (nodup_getElem?_inj h hi he) (by omega)
    | exact absurd (nodup_getElem?_inj h hk he) (by omega)
    | exact absurd (nodup_getElem?_inj h hx he) (by omega)

theorem IsPermOfRange.swap {n : Nat} {a : List Nat} (h : IsPermOfRange n a) (i k : Nat)
    (hi : i < n) (hk : k < n) : IsPermOfRange n (sferes.misc.swap a i k) := by
  obtain ⟨hl, hn, hm⟩ := h
  refine ⟨by rw [length_swap, hl], nodup_swap a i k (hl ▸ hi) (hl ▸ hk) hn, fun x hx => ?_⟩
  exact hm x ((mem_swap a i k (hl ▸ hi) (hl ▸ hk) x).mp hx)

theorem fill_range (n : Nat) :
    ∀ (fuel i : Nat) (a : List Nat), a.length = n → n ≤ i + fuel →
      (∀ j, j < i → j < n → a[j]? = some j) →
      rand_ind.fill fuel i a = some (List.range n) := by
  intro fuel
  induction fuel with
  | zero =>
    intro i a hl hf hp
    have hi : ¬ i < a.length := by omega
    unfold rand_ind.fill
    simp only [hi, if_false]
    congr 1
    apply List.ext_getElem?
    intro j
    by_cases hj : j < n
    · rw [hp j (by omega) hj, List.getElem?_range hj]
    · rw [List.getElem?_eq_none (by omega), List.getElem?_eq_none (by simp; omega)]
  | succ fuel ih =>
    intro i a hl hf hp
    unfold rand_ind.fill
    by_cases hi : i < a.length
    · simp only [hi, if_true]
      apply ih (i + 1) (a.set i i) (by simp [hl]) (by omega)
      intro j hj hjn
      rw [List.getElem?_set]
      by_cases hij : i = j
      · simp [hij, ← hl, hjn]
        omega
      · simp only [hij, if_false]
        exact hp j (by omega) hjn
    · simp only [hi, if_false]
      congr 1
      apply List.ext_getElem?
      intro j
      by_cases hj : j < n
      · rw [hp j (by omega) hj, List.getElem?_range hj]
      · rw [List.getElem?_eq_none (by omega), List.getElem?_eq_none (by simp; omega)]

theorem rand_ind_eq (ω : Dist Nat → Engine → Nat) (a1 : List Nat) (n : Nat)
    (st : RandState Nat) :
    rand_ind ω a1 n st = rand_ind.shuffle ω n 0 (List.range n) st := by
  unfold rand_ind
  rw [fill_range n n 0 (resize a1 n) (length_resize a1 n) (by omega)
    (fun j hj _ => absurd hj (Nat.not_lt_zero j))]

/-! ## The shuffle -/

theorem shuffle_step (ω : Dist Nat → Engine → Nat) (fuel i : Nat) (a : List Nat)
    (st st1 : RandState Nat) (k : Nat) (hi : i < a.length)
    (hr : rand ω i a.length st = .ok k st1) (hk : k < a.length) :
    rand_ind.shuffle ω (fuel + 1) i a st = rand_ind.shuffle ω fuel (i + 1) (swap a i k) st1 := by
  rw [rand_ind.shuffle.eq_def]
  simp only [hi, if_true, hr, hk, not_true_eq_false, if_false]

theorem shuffle_exit (ω : Dist Nat → Engine → Nat) (fuel i : Nat) (a : List Nat)
    (st : RandState Nat) (hi : ¬ i < a.length) :
    rand_ind.shuffle ω fuel i a st = .ok a st := by
  unfold rand_ind.shuffle
  simp only [hi, if_false]

theorem shuffleBy_step (k : Nat → Nat) (fuel i : Nat) (a : List Nat) (hi : i < a.length) :
    shuffleBy k (fuel + 1) i a = shuffleBy k fuel (i + 1) (swap a i (k i)) := by
  rw [shuffleBy]
  simp only [hi, if_true]

theorem shuffleBy_exit (k : Nat → Nat) (fuel i : Nat) (a : List Nat) (hi : ¬ i < a.length) :
    shuffleBy k fuel i a = a := by
  cases fuel with
  | zero => rfl
  | succ fuel =>
    rw [shuffleBy]
    simp only [hi, if_false]

theorem shuffle_ok (ω : Dist Nat → Engine → Nat) (n : Nat)
    (hω : ∀ i, i < n → ∀ e, i ≤ ω ⟨i, n⟩ e ∧ ω ⟨i, n⟩ e < n) :
    ∀ (fuel i : Nat) (a : List Nat) (st : RandState Nat), st.inv → IsPermOfRange n a →
      n ≤ i + fuel →
      ∃ r st1, rand_ind.shuffle ω fuel i a st = .ok r st1 ∧ IsPermOfRange n r ∧ st1.inv := by
  intro fuel
  induction fuel with
  | zero =>
    intro i a st hst ha hf
    have hi : ¬ i < a.length := by rw [ha.1]; omega
    exact ⟨a, st, shuffle_exit ω _ i a st hi, ha, hst⟩
  | succ fuel ih =>
    intro i a st hst ha hf
    by_cases hi : i < a.length
    · have hin : i < n := ha.1 ▸ hi
      obtain ⟨en, g, e1, hg, -, hr⟩ := rand_draw ω i n st hst hin
      have hv := hω i hin en
      rw [rand_post_ok i n _ _ hv.1 hv.2] at hr
      have hst1 : (⟨some ⟨i, n, g⟩, e1⟩ : RandState Nat).inv := by
        intro sl hsl
        cases hsl
        exact hg
      obtain ⟨r, st2, h2, hr2, hst2⟩ := ih (i + 1) (swap a i (ω ⟨i, n⟩ en)) _ hst1
        (ha.swap i _ hin hv.2) (by omega)
      refine ⟨r, st2, ?_, hr2, hst2⟩
      rw [shuffle_step ω fuel i a st _ _ hi (by rw [ha.1]; exact hr) (by rw [ha.1]; exact hv.2)]
      exact h2
    · exact ⟨a, st, shuffle_exit ω _ i a st hi, ha, hst⟩

theorem isPermOfRange_range (n : Nat) : IsPermOfRange n (List.range n) :=
  ⟨List.length_range n, List.nodup_range n, fun _ hx => List.mem_range.mp hx⟩

theorem shuffle_drawsOf (k : Nat → Nat) (n : Nat) :
    ∀ (fuel i : Nat) (a : List Nat) (st : RandState Nat), st.inv → a.length = n →
      n ≤ i + fuel → (∀ m, i ≤ m → m < n → m ≤ k m ∧ k m < n) →
      ∃ st1, rand_ind.shuffle (drawsOf k) fuel i a st = .ok (shuffleBy k fuel i a) st1 := by
  intro fuel
  induction fuel with
  | zero =>
    intro i a st hst ha hf hk
    have hi : ¬ i < a.length := by rw [ha]; omega
    exact ⟨st, by rw [shuffle_exit _ _ i a st hi, shuffleBy_exit k _ i a hi]⟩
  | succ fuel ih =>
    intro i a st hst ha hf hk
    by_cases hi : i < a.length
    · have hin : i < n := ha ▸ hi
      obtain ⟨en, g, e1, hg, -, hr⟩ := rand_draw (drawsOf k) i n st hst hin
      have hv := hk i (le_refl i) hin
      have hd : drawsOf k ⟨i, n⟩ en = k i := rfl
      rw [hd, rand_post_ok i n _ _ hv.1 hv.2] at hr
      have hst1 : (⟨some ⟨i, n, g⟩, e1⟩ : RandState Nat).inv := by
        intro sl hsl
        cases hsl
        exact hg
      obtain ⟨st2, h2⟩ := ih (i + 1) (swap a i (k i)) _ hst1
        (by rw [length_swap, ha]) (by omega) (fun m hm hmn => hk m (by omega) hmn)
      refine ⟨st2, ?_⟩
      rw [shuffle_step _ fuel i a st _ _ hi (by rw [ha]; exact hr) (by rw [ha]; exact hv.2),
        shuffleBy_step k fuel i a hi]
      exact h2
    · exact ⟨st, by rw [shuffle_exit _ _ i a st hi, shuffleBy_exit k _ i a hi]⟩

theorem length_shuffleBy (k : Nat → Nat) :
    ∀ (fuel i : Nat) (a : List Nat), (shuffleBy k fuel i a).length = a.length := by
  intro fuel
  induction fuel with
  | zero => intro i a; rfl
  | succ fuel ih =>
    intro i a
    unfold shuffleBy
    split_ifs
    · rw [ih, length_swap]
    · rfl

theorem shuffleBy_before (k : Nat → Nat) :
    ∀ (fuel i : Nat) (a : List Nat) (j : Nat), j < i →
      (∀ m, i ≤ m → m < a.length → m ≤ k m ∧ k m < a.length) →
      (shuffleBy k fuel i a)[j]? = a[j]? := by
  intro fuel
  induction fuel with
  | zero => intro i a j _ _; rfl
  | succ fuel ih =>
    intro i a j hj hk
    unfold shuffleBy
    split_ifs with hi
    · have hv := hk i (le_refl i) hi
      rw [ih (i + 1) _ j (by omega) (by
        intro m hm hml
        rw [length_swap] at hml ⊢
        exact hk m (by omega) hml)]
      rw [getElem?_swap a i (k i) j hi hv.2]
      have h1 : ¬ j = k i := by omega
      have h2 : ¬ j = i := by omega
      simp only [h1, h2, if_false]
    · rfl

theorem shuffleBy_at (k : Nat → Nat) (fuel i : Nat) (a : List Nat) (hi : i < a.length)
    (hk : ∀ m, i ≤ m → m < a.length → m ≤ k m ∧ k m < a.length) :
    (shuffleBy k (fuel + 1) i a)[i]? = a[k i]? := by
  have hv := hk i (le_refl i) hi
  unfold shuffleBy
  simp only [hi, if_true]
  rw [shuffleBy_before k fuel (i + 1) _ i (by omega) (by
    intro m hm hml
    rw [length_swap] at hml ⊢
    exact hk m (by omega) hml)]
  rw [getElem?_swap a i (k i) i hi hv.2]
  by_cases h : i = k i
  · rw [if_pos h, ← h]
  · rw [if_neg h, if_pos rfl]

theorem shuffleBy_congr (k k1 : Nat → Nat) :
    ∀ (fuel i : Nat) (a : List Nat), (∀ m, i ≤ m → k m = k1 m) →
      shuffleBy k fuel i a = shuffleBy k1 fuel i a := by
  intro fuel
  induction fuel with
  | zero => intro i a _; rfl
  | succ fuel ih =>
    intro i a h
    unfold shuffleBy
    rw [h i (le_refl i), ih (i + 1) _ (fun m hm => h m (by omega))]

theorem shuffleBy_injective (k k1 : Nat → Nat) (n : Nat) :
    ∀ (fuel i : Nat) (a : List Nat), a.length = n → a.Nodup → n ≤ i + fuel →
      (∀ m, i ≤ m → m < n → m ≤ k m ∧ k m < n) →
      (∀ m, i ≤ m → m < n → m ≤ k1 m ∧ k1 m < n) →
      shuffleBy k fuel i a = shuffleBy k1 fuel i a →
      ∀ m, i ≤ m → m < n → k m = k1 m := by
  intro fuel
  induction fuel with
  | zero =>
    intro i a _ _ hf _ _ _ m hm hmn
    omega
  | succ fuel ih =>
    intro i a ha hn hf hk hk1 he m hm hmn
    have hi : i < a.length := by omega
    have hv := hk i (le_refl i) (by omega)
    have hv1 := hk1 i (le_refl i) (by omega)
    have hki : k i = k1 i := by
      have h1 := shuffleBy_at k fuel i a hi (by rw [ha]; exact hk)
      have h2 := shuffleBy_at k1 fuel i a hi (by rw [ha]; exact hk1)
      rw [he, h2] at h1
      exact (nodup_getElem?_inj hn (by omega) h1).symm
    by_cases hmi : m = i
    · rw [hmi]
      exact hki
    · unfold shuffleBy at he
      simp only [hi, if_true] at he
      rw [← hki] at he
      exact ih (i + 1) (swap a i (k i)) (by rw [length_swap, ha])
        (nodup_swap a i (k i) hi (by omega) hn) (by omega)
        (fun m hm hmn => hk m (by omega) hmn) (fun m hm hmn => hk1 m (by omega) hmn) he
        m (by omega) hmn

theorem shuffleBy_surjective (n : Nat) (p : List Nat) (hp : p.length = n) (hpn : p.Nodup) :
    ∀ (fuel i : Nat) (a : List Nat), a.length = n → n ≤ i + fuel →
      (∀ x ∈ p, x ∈ a) → (∀ j, j < i → a[j]? = p[j]?) →
      ∃ k : Nat → Nat, (∀ m, i ≤ m → m < n → m ≤ k m ∧ k m < n) ∧
        shuffleBy k fuel i a = p := by
  have done : ∀ (i : Nat) (a : List Nat), a.length = n → n ≤ i →
      (∀ j, j < i → a[j]? = p[j]?) → a = p := by
    intro i a ha hi hj
    apply List.ext_getElem?
    intro j
    by_cases hjn : j < n
    · exact hj j (by omega)
    · rw [List.getElem?_eq_none (by omega), List.getElem?_eq_none (by omega)]
  intro fuel
  induction fuel with
  | zero =>
    intro i a ha hf _ hj
    exact ⟨fun m => m, fun m _ hmn => ⟨le_refl m, hmn⟩, done i a ha (by omega) hj⟩
  | succ fuel ih =>
    intro i a ha hf hmem hj
    by_cases hi : i < n
    · obtain ⟨x, hpi⟩ : ∃ x, p[i]? = some x :=
        ⟨_, List.getElem?_eq_getElem (by omega)⟩
      obtain ⟨j, hja⟩ := List.mem_iff_getElem?.mp
        (hmem _ (List.mem_iff_getElem?.mpr ⟨i, hpi⟩))
      have hjn : j < n := by
        by_contra hc
        rw [List.getElem?_eq_none (by omega)] at hja
        cases hja
      have hij : i ≤ j := by
        by_contra hc
        have h1 := hj j (by omega)
        rw [hja, ← hpi] at h1
        have := nodup_getElem?_inj hpn (by omega) h1
        omega
      obtain ⟨k1, hk1, hs⟩ := ih (i + 1) (swap a i j) (by rw [length_swap, ha]) (by omega)
        (fun x hx => (mem_swap a i j (by omega) (by omega) x).mpr (hmem x hx))
        (by
          intro m hm
          rw [getElem?_swap a i j m (by omega) (by omega)]
          by_cases hmi : m = i
          · subst hmi
            by_cases hmj : m = j
            · rw [if_pos hmj, hpi, ← hja, hmj]
            · rw [if_neg hmj, if_pos rfl, hja, hpi]
          · have hmj : ¬ m = j := by omega
            simp only [hmi, hmj, if_false]
            exact hj m (by omega))
      refine ⟨fun m => if m = i then j else k1 m, ?_, ?_⟩
      · intro m hm hmn
        by_cases hmi : m = i
        · simp only [hmi, if_true]
          exact ⟨hij, hjn⟩
        · simp only [hmi, if_false]
          exact hk1 m (by omega) hmn
      · unfold shuffleBy
        have hia : i < a.length := by omega
        simp only [hia, if_true]
        rw [shuffleBy_congr _ k1 fuel (i + 1) _ (by
          intro m hm
          have : ¬ m = i := by omega
          simp only [this, if_false])]
        exact hs
    · refine ⟨fun m => m, fun m _ hmn => ⟨le_refl m, hmn⟩, ?_⟩
      have hia : ¬ i < a.length := by omega
      unfold shuffleBy
      simp only [hia, if_false]
      exact done i a ha (by omega) hj

/-- C6: from any slot state, with draws of which the `i`-th lies in `[i, n)`,
`rand_ind(a1, n)` returns without any assertion failing and leaves in `a1` a list
of length `n` that is a permutation of `0, ..., n-1`, whatever `a1` held before; for
`n = 0` the result is empty and the slot state is untouched (nothing is drawn). -/
theorem rand_ind_permutation (ω : Dist Nat → Engine → Nat) (a1 : List Nat) (n : Nat)
    (st : RandState Nat) (hst : st.inv)
    (hω : ∀ i, i < n → ∀ e, i ≤ ω ⟨i, n⟩ e ∧ ω ⟨i, n⟩ e < n) :
    (∃ r st1, rand_ind ω a1 n st = .ok r st1 ∧ r.length = n ∧ r.Perm (List.range n)) ∧
    (n = 0 → rand_ind ω a1 n st = .ok [] st) := by
  constructor
  · obtain ⟨r, st1, h1, h2, -⟩ :=
      shuffle_ok ω n hω n 0 (List.range n) st hst (isPermOfRange_range n) (by omega)
    exact ⟨r, st1, by rw [rand_ind_eq, h1], h2.1, h2.perm⟩
  · intro h0
    subst h0
    rw [rand_ind_eq]
    exact shuffle_exit ω 0 0 _ st (by simp)

theorem rand_ind_permutation_witness :
    (⟨none, 0⟩ : RandState Nat).inv ∧
    (∀ i, i < 3 → ∀ e : Engine, i ≤ (fun (d : Dist Nat) (_ : Engine) => d.b - 1) ⟨i, 3⟩ e ∧
      (fun (d : Dist Nat) (_ : Engine) => d.b - 1) ⟨i, 3⟩ e < 3) ∧
    ((∃ r st1, rand_ind (fun d _ => d.b - 1) [7, 7, 7, 7, 7] 3 ⟨none, 0⟩ = .ok r st1 ∧
        r.length = 3 ∧ r.Perm (List.range 3)) ∧
      (3 = 0 → rand_ind (fun d _ => d.b - 1) [7, 7, 7, 7, 7] 3 ⟨none, 0⟩ = .ok [] ⟨none, 0⟩)) :=
  ⟨RandState.inv_none 0, fun i hi _ => ⟨by simp; omega, by simp⟩,
    rand_ind_permutation (fun d _ => d.b - 1) [7, 7, 7, 7, 7] 3 ⟨none, 0⟩
      (RandState.inv_none 0) (fun i hi _ => ⟨by simp; omega, by simp⟩)⟩

theorem rand_ind_drawsOf (k : Nat → Nat) (a1 : List Nat) (n : Nat) (st : RandState Nat)
    (hst : st.inv) (hk : ValidDraws n k) :
    (rand_ind (drawsOf k) a1 n st).value? = some (shuffleBy k n 0 (List.range n)) := by
  obtain ⟨st1, h1⟩ := shuffle_drawsOf k n n 0 (List.range n) st hst (List.length_range n)
    (by omega) (fun m _ hmn => hk m hmn)
  rw [rand_ind_eq, h1]
  rfl

/-- C7: for every `n`, sending the draws `k 0, ..., k (n-1)` with `i <= k i < n` to the
list `rand_ind(a1, n)` returns under them is a bijection onto the permutations of
`0, ..., n-1`: the result is such a permutation, different draws give different
results, and every permutation is the result of some draws. -/
theorem rand_ind_bijection (a1 : List Nat) (n : Nat) (st : RandState Nat) (hst : st.inv) :
    (∀ k, ValidDraws n k →
      ∃ r, (rand_ind (drawsOf k) a1 n st).value? = some r ∧ r.Perm (List.range n)) ∧
    (∀ k k1, ValidDraws n k → ValidDraws n k1 →
      (rand_ind (drawsOf k) a1 n st).value? = (rand_ind (drawsOf k1) a1 n st).value? →
      ∀ i, i < n → k i = k1 i) ∧
    (∀ p : List Nat, p.Perm (List.range n) →
      ∃ k, ValidDraws n k ∧ (rand_ind (drawsOf k) a1 n st).value? = some p) := by
  refine ⟨fun k hk => ?_, fun k k1 hk hk1 he i hi => ?_, fun p hp => ?_⟩
  · obtain ⟨r, st1, h1, -, h3⟩ := (rand_ind_permutation (drawsOf k) a1 n st hst
      (fun i hi _ => hk i hi)).1
    exact ⟨r, by rw [h1]; rfl, h3⟩
  · rw [rand_ind_drawsOf k a1 n st hst hk, rand_ind_drawsOf k1 a1 n st hst hk1] at he
    exact shuffleBy_injective k k1 n n 0 (List.range n) (List.length_range n)
      (List.nodup_range n) (by omega) (fun m _ hmn => hk m hmn) (fun m _ hmn => hk1 m hmn)
      (Option.some.inj he) i (Nat.zero_le i) hi
  · have hpr := isPermOfRange_of_perm hp
    obtain ⟨k, hk, hs⟩ := shuffleBy_surjective n p hpr.1 hpr.2.1 n 0 (List.range n)
      (List.length_range n) (by omega)
      (fun x hx => List.mem_range.mpr (hpr.2.2 x hx))
      (fun j hj => absurd hj (Nat.not_lt_zero j))
    have hv : ValidDraws n k := fun m hmn => hk m (Nat.zero_le m) hmn
    exact ⟨k, hv, by rw [rand_ind_drawsOf k a1 n st hst hv, hs]⟩

theorem rand_ind_bijection_witness :
    (⟨none, 0⟩ : RandState Nat).inv ∧
    ((∀ k, ValidDraws 2 k →
      ∃ r, (rand_ind (drawsOf k) [] 2 ⟨none, 0⟩).value? = some r ∧ r.Perm (List.range 2)) ∧
    (∀ k k1, ValidDraws 2 k → ValidDraws 2 k1 →
      (rand_ind (drawsOf k) [] 2 ⟨none, 0⟩).value? =
        (rand_ind (drawsOf k1) [] 2 ⟨none, 0⟩).value? →
      ∀ i, i < 2 → k i = k1 i) ∧
    (∀ p : List Nat, p.Perm (List.range 2) →
      ∃ k, ValidDraws 2 k ∧ (rand_ind (drawsOf k) [] 2 ⟨none, 0⟩).value? = some p)) :=
  ⟨RandState.inv_none 0, rand_ind_bijection [] 2 ⟨none, 0⟩ (RandState.inv_none 0)⟩

/-! ## Random position in a container -/

/-- C8 (fails on the code): `std::uniform_int_distribution<int>(0, 1)` may yield `1`, and with that
draw the first call of `rand_in_list` and of `rand_l` on a one-element container
returns position `1`, the past-the-end iterator. -/
theorem rand_in_list_returns_end :
    UniformIntSpec (fun d _ => d.b) ∧
    rand_in_list (fun d _ => d.b) [7] ⟨none, 0⟩ =
      .ok [7].length ⟨some ⟨⟨0, 1⟩, ⟨0, 1⟩⟩, 1⟩ ∧
    rand_l (fun d _ => d.b) [7] ⟨none, 0⟩ =
      .ok [7].length ⟨some ⟨⟨0, 1⟩, ⟨0, 1⟩⟩, 1⟩ :=
  ⟨fun _ _ h => ⟨h, le_refl _⟩, by decide, by decide⟩

/-- C9 (as stated, fails on the code): on an empty container the first call of `rand_in_list`
and of `rand_l` returns an iterator, `l.begin()`, which is `l.end()`; no
precondition error is raised. -/
theorem rand_in_list_empty_returns :
    UniformIntSpec (fun d _ => d.a) ∧
    rand_in_list (fun d _ => d.a) ([] : List Nat) ⟨none, 0⟩ =
      .ok ([] : List Nat).length ⟨some ⟨⟨0, 0⟩, ⟨0, 1⟩⟩, 1⟩ ∧
    rand_l (fun d _ => d.a) ([] : List Nat) ⟨none, 0⟩ =
      .ok ([] : List Nat).length ⟨some ⟨⟨0, 0⟩, ⟨0, 1⟩⟩, 1⟩ :=
  ⟨fun _ _ h => ⟨le_refl _, h⟩, by decide, by decide⟩

theorem advance_zero_len (steps : Nat) :
    advance 0 steps 0 = if steps = 0 then some 0 else none := by
  cases steps <;> simp [advance]

/-- C9 (amended): `rand_in_list` and `rand_l` do not check that the container is not
empty. On an empty container the first call, whose distribution is built with
`(0, 0)` and so yields `0`, returns `l.begin()`, which is `l.end()`; in any slot
state a call returns `l.begin()` or advances past the end, and fails no
assertion. -/
theorem rand_in_list_empty {α : Type} (ω : Dist Int → Engine → Int) (hω : UniformIntSpec ω)
    (e : Nat) :
    (rand_in_list ω ([] : List α) ⟨none, e⟩ = .ok 0 ⟨some ⟨⟨0, 0⟩, ⟨e, 1⟩⟩, e + 1⟩ ∧
      rand_l ω ([] : List α) ⟨none, e⟩ = .ok 0 ⟨some ⟨⟨0, 0⟩, ⟨e, 1⟩⟩, e + 1⟩) ∧
    (∀ st : ListState,
      (∃ st1, rand_in_list ω ([] : List α) st = .ok 0 st1 ∨
        rand_in_list ω ([] : List α) st = .fail .past_the_end st1) ∧
      (∃ st1, rand_l ω ([] : List α) st = .ok 0 st1 ∨
        rand_l ω ([] : List α) st = .fail .past_the_end st1)) := by
  have h0 : ω ⟨0, 0⟩ ⟨e, 0⟩ = 0 := by
    have := hω ⟨0, 0⟩ ⟨e, 0⟩ (le_refl _)
    exact le_antisymm this.2 this.1
  refine ⟨⟨?_, ?_⟩, fun st => ?_⟩
  · simp [rand_in_list, RandomGenerator.init, RandomGenerator.rand, int_of_size, h0, advance]
  · simp [rand_l, RandomGenerator.init, RandomGenerator.rand, int_of_size, h0, advance,
      size_of_int]
  · constructor
    · simp only [rand_in_list, List.length_nil, advance_zero_len]
      split_ifs
      · exact ⟨_, Or.inl rfl⟩
      · exact ⟨_, Or.inr rfl⟩
    · simp only [rand_l, List.length_nil, advance_zero_len]
      split_ifs
      · exact ⟨_, Or.inl rfl⟩
      · exact ⟨_, Or.inr rfl⟩

theorem rand_in_list_empty_witness :
    UniformIntSpec (fun d _ => d.a) ∧
    ((rand_in_list (fun d _ => d.a) ([] : List Nat) ⟨none, 3⟩ =
        .ok 0 ⟨some ⟨⟨0, 0⟩, ⟨3, 1⟩⟩, 3 + 1⟩ ∧
      rand_l (fun d _ => d.a) ([] : List Nat) ⟨none, 3⟩ =
        .ok 0 ⟨some ⟨⟨0, 0⟩, ⟨3, 1⟩⟩, 3 + 1⟩) ∧
    (∀ st : ListState,
      (∃ st1, rand_in_list (fun d _ => d.a) ([] : List Nat) st = .ok 0 st1 ∨
        rand_in_list (fun d _ => d.a) ([] : List Nat) st = .fail .past_the_end st1) ∧
      (∃ st1, rand_l (fun d _ => d.a) ([] : List Nat) st = .ok 0 st1 ∨
        rand_l (fun d _ => d.a) ([] : List Nat) st = .fail .past_the_end st1))) :=
  ⟨fun _ _ h => ⟨le_refl _, h⟩,
    rand_in_list_empty (fun d _ => d.a) (fun _ _ h => ⟨le_refl _, h⟩) 3⟩

/-! ## Calls that find their bounds cached -/

/-- C11: a call `rand(min, max)` resp. `rand<int>(min, max)` whose bounds are the cached ones
does not rebuild: the cached bounds, the distribution and the entropy counter
stay as they are, the value is drawn from the cached distribution on the cached
engine, and that engine has made one more draw. The first call of a slot is its
initialisation followed by such a call: the initialisers take the one seed, and
no second generator is built. -/
theorem rand_same_bounds_no_rebuild :
    (∀ {T : Type} [LinearOrder T] (ω : Dist T → Engine → T) (min max : T)
        (sl : RandSlot T) (e : Nat), min < max → (min, max) = (sl._min, sl._max) →
      rand ω min max ⟨some sl, e⟩ =
        rand.post min max (ω sl.rgen._dist sl.rgen._rgen)
          ⟨some ⟨sl._min, sl._max,
            ⟨sl.rgen._dist, ⟨sl.rgen._rgen.seed, sl.rgen._rgen.draws + 1⟩⟩⟩, e⟩ ∧
      (rand ω min max ⟨some sl, e⟩).state =
        ⟨some ⟨sl._min, sl._max,
          ⟨sl.rgen._dist, ⟨sl.rgen._rgen.seed, sl.rgen._rgen.draws + 1⟩⟩⟩, e⟩) ∧
    (∀ {T : Type} [LinearOrder T] (ω : Dist T → Engine → T) (min max : T) (e : Nat),
      min < max →
      rand ω min max ⟨none, e⟩ =
        rand ω min max ⟨some ⟨min, max, (RandomGenerator.init min max e).1⟩,
          (RandomGenerator.init min max e).2⟩ ∧
      (rand ω min max ⟨none, e⟩).state =
        ⟨some ⟨min, max, ⟨⟨min, max⟩, ⟨e, 1⟩⟩⟩, e + 1⟩) ∧
    (∀ (ω : Dist Int → Engine → Int) (min max : Int)
        (sl : RandSlot Int) (e : Nat), min < max → (min, max) = (sl._min, sl._max) →
      rand_int ω min max ⟨some sl, e⟩ =
        rand.post min max (ω sl.rgen._dist sl.rgen._rgen)
          ⟨some ⟨sl._min, sl._max,
            ⟨sl.rgen._dist, ⟨sl.rgen._rgen.seed, sl.rgen._rgen.draws + 1⟩⟩⟩, e⟩ ∧
      (rand_int ω min max ⟨some sl, e⟩).state =
        ⟨some ⟨sl._min, sl._max,
          ⟨sl.rgen._dist, ⟨sl.rgen._rgen.seed, sl.rgen._rgen.draws + 1⟩⟩⟩, e⟩) ∧
    (∀ (ω : Dist Int → Engine → Int) (min max : Int) (e : Nat), min < max →
      rand_int ω min max ⟨none, e⟩ =
        rand_int ω min max ⟨some ⟨min, max, (RandomGenerator.init min max e).1⟩,
          (RandomGenerator.init min max e).2⟩ ∧
      (rand_int ω min max ⟨none, e⟩).state =
        ⟨some ⟨min, max, ⟨⟨min, max⟩, ⟨e, 1⟩⟩⟩, e + 1⟩) := by
  have hit : ∀ {T : Type} [LinearOrder T] (ω : Dist T → Engine → T) (min max : T)
      (sl : RandSlot T) (e : Nat), min < max → (min, max) = (sl._min, sl._max) →
      rand ω min max ⟨some sl, e⟩ =
        rand.post min max (ω sl.rgen._dist sl.rgen._rgen)
          ⟨some ⟨sl._min, sl._max,
            ⟨sl.rgen._dist, ⟨sl.rgen._rgen.seed, sl.rgen._rgen.draws + 1⟩⟩⟩, e⟩ := by
    intro T _ ω min max sl e h heq
    have h1 : min = sl._min := congrArg Prod.fst heq
    have h2 : max = sl._max := congrArg Prod.snd heq
    exact rand_cached ω min max sl e h h2 h1
  have first : ∀ {T : Type} [LinearOrder T] (ω : Dist T → Engine → T) (min max : T)
      (e : Nat), min < max →
      rand ω min max ⟨none, e⟩ =
        rand ω min max ⟨some ⟨min, max, (RandomGenerator.init min max e).1⟩,
          (RandomGenerator.init min max e).2⟩ := by
    intro T _ ω min max e h
    rw [rand_first ω min max e h, hit ω min max _ _ h rfl]
    rfl
  refine ⟨fun ω min max sl e h heq => ⟨hit ω min max sl e h heq, ?_⟩,
    fun ω min max e h => ⟨first ω min max e h, ?_⟩,
    fun ω min max sl e h heq => ⟨?_, ?_⟩, fun ω min max e h => ⟨?_, ?_⟩⟩
  · rw [hit ω min max sl e h heq, rand_post_state]
  · rw [rand_first ω min max e h, rand_post_state]
  · rw [rand_int_eq_rand, hit ω min max sl e h heq]
  · rw [rand_int_eq_rand, hit ω min max sl e h heq, rand_post_state]
  · rw [rand_int_eq_rand, rand_int_eq_rand, first ω min max e h]
  · rw [rand_int_eq_rand, rand_first ω min max e h, rand_post_state]

theorem rand_same_bounds_no_rebuild_witness :
    (5 : Int) < 20 ∧ ((5 : Int), (20 : Int)) = (5, 20) ∧
    rand_int (fun d _ => d.a) 5 20 ⟨some ⟨5, 20, ⟨⟨5, 20⟩, ⟨1, 4⟩⟩⟩, 2⟩ =
      rand.post 5 20 5 ⟨some ⟨5, 20, ⟨⟨5, 20⟩, ⟨1, 4 + 1⟩⟩⟩, 2⟩ ∧
    (rand_int (fun d _ => d.a) 5 20 ⟨some ⟨5, 20, ⟨⟨5, 20⟩, ⟨1, 4⟩⟩⟩, 2⟩).state =
      ⟨some ⟨5, 20, ⟨⟨5, 20⟩, ⟨1, 4 + 1⟩⟩⟩, 2⟩ :=
  ⟨by decide, rfl,
    rand_same_bounds_no_rebuild.2.2.1 (fun d _ => d.a) 5 20 ⟨5, 20, ⟨⟨5, 20⟩, ⟨1, 4⟩⟩⟩ 2
      (by decide) rfl⟩

/-! ## The coin -/

/-- C12: from every state of the `rand<float>` slot, `flip_coin()` makes the call
`rand<float>(0, 1)`, whose value `v` is drawn from the distribution with bounds
`(0, 1)`; the slot caches `(0, 1)` afterwards; the result, when there is one, is
`true` exactly when `v < 0.5`, and there is one whenever the distribution yields
values of `[0, 1)`. -/
theorem flip_coin_draw (ω : Dist ℚ → Engine → ℚ) (st : RandState ℚ) (hst : st.inv) :
    ∃ (en : Engine) (g : RandomGenerator ℚ) (e1 : Nat),
      g._dist = ⟨0, 1⟩ ∧
      rand_max ω 1 st = rand ω 0 1 st ∧
      rand ω 0 1 st = rand.post 0 1 (ω ⟨0, 1⟩ en) ⟨some ⟨0, 1, g⟩, e1⟩ ∧
      (flip_coin ω st).state = ⟨some ⟨0, 1, g⟩, e1⟩ ∧
      (∀ b st1, flip_coin ω st = .ok b st1 → (b = true ↔ ω ⟨0, 1⟩ en < 1 / 2)) ∧
      (HalfOpenDraws ω →
        flip_coin ω st = .ok (decide (ω ⟨0, 1⟩ en < 1 / 2)) ⟨some ⟨0, 1, g⟩, e1⟩) := by
  obtain ⟨en, g, e1, hg, -, hr⟩ := rand_draw ω 0 1 st hst (by norm_num)
  refine ⟨en, g, e1, hg, rfl, hr, ?_, ?_, ?_⟩
  · unfold flip_coin rand_max
    rw [hr]
    unfold rand.post
    split_ifs <;> rfl
  · intro b st1 hb
    unfold flip_coin rand_max at hb
    rw [hr] at hb
    unfold rand.post at hb
    split_ifs at hb
    simp at hb
    rw [← hb.1]
    simp
  · intro hω
    have hv := hω ⟨0, 1⟩ en (by norm_num)
    unfold flip_coin rand_max
    rw [hr, rand_post_ok 0 1 _ _ hv.1 hv.2]

theorem flip_coin_draw_witness :
    (⟨none, 0⟩ : RandState ℚ).inv ∧
    ∃ (en : Engine) (g : RandomGenerator ℚ) (e1 : Nat),
      g._dist = ⟨0, 1⟩ ∧
      rand_max (fun (d : Dist ℚ) (_ : Engine) => d.a) 1 ⟨none, 0⟩ =
        rand (fun (d : Dist ℚ) (_ : Engine) => d.a) 0 1 ⟨none, 0⟩ ∧
      rand (fun (d : Dist ℚ) (_ : Engine) => d.a) 0 1 ⟨none, 0⟩ =
        rand.post 0 1 ((fun (d : Dist ℚ) (_ : Engine) => d.a) ⟨0, 1⟩ en)
          ⟨some ⟨0, 1, g⟩, e1⟩ ∧
      (flip_coin (fun d _ => d.a) ⟨none, 0⟩).state = ⟨some ⟨0, 1, g⟩, e1⟩ ∧
      (∀ b st1, flip_coin (fun d _ => d.a) ⟨none, 0⟩ = .ok b st1 →
        (b = true ↔ (fun (d : Dist ℚ) (_ : Engine) => d.a) ⟨0, 1⟩ en < 1 / 2)) ∧
      (HalfOpenDraws (fun (d : Dist ℚ) (_ : Engine) => d.a) →
        flip_coin (fun d _ => d.a) ⟨none, 0⟩ =
          .ok (decide ((fun (d : Dist ℚ) (_ : Engine) => d.a) ⟨0, 1⟩ en < 1 / 2))
            ⟨some ⟨0, 1, g⟩, e1⟩) :=
  ⟨RandState.inv_none 0,
    flip_coin_draw (fun (d : Dist ℚ) (_ : Engine) => d.a) ⟨none, 0⟩ (RandState.inv_none 0)⟩

/-! ## The Gaussian slot -/

/-- C13 (as stated, fails on the code): on a slot that caches a NaN mean with variance `1`, the call
`gaussian_rand(NaN, 2)`, which passes that same mean and another, non-NaN
variance, does rebuild: `_m != m` holds of a NaN. The cached pair becomes
`(NaN, 2)` and a new generator is seeded. -/
theorem gaussian_nan_mean_rebuilds :
    gaussian_rand Flt.ne (fun d _ => d.a) none (some 2)
        ⟨some ⟨⟨⟨none, some 1⟩, ⟨1, 1⟩⟩, none, some 1⟩, 2⟩ =
      .ok none ⟨some ⟨⟨⟨none, some 2⟩, ⟨2, 1⟩⟩, none, some 2⟩, 3⟩ ∧
    callsFrom (fun (c : Flt × Flt) st => gaussian_rand Flt.ne (fun d _ => d.a) c.1 c.2 st)
        [(none, some 1)] ⟨none, 0⟩ =
      ⟨some ⟨⟨⟨none, some 1⟩, ⟨1, 1⟩⟩, none, some 1⟩, 2⟩ := by
  constructor
  · simp [gaussian_rand, Flt.ne, RandomGenerator.init, RandomGenerator.rand]
  · simp [callsFrom, gaussian_rand, Flt.ne, RandomGenerator.init, RandomGenerator.rand]

/-- C13 (amended): on a slot whose cached mean `m0` is not a NaN, a call
`gaussian_rand(m0, v)` with a non-NaN `v` (equal to the cached variance or not) does
not rebuild: the cached pair and the distribution stay, and the value is drawn
from the distribution built with the cached pair. In general a call rebuilds
exactly when `v != v` or `_m != m` holds (the latter also when either mean is a
NaN), and then draws from a new generator built with `(m, v)`. -/
theorem gaussian_variance_change_ignored {T : Type} (ne : T → T → Bool)
    (ω : Dist T → Engine → T) (sl : GaussSlot T) (hsl : sl.inv) (e : Nat) :
    (∀ v, ne sl._m sl._m = false → ne v v = false →
      gaussian_rand ne ω sl._m v ⟨some sl, e⟩ =
        .ok (ω ⟨sl._m, sl._v⟩ sl.rgen._rgen)
          ⟨some ⟨⟨⟨sl._m, sl._v⟩, ⟨sl.rgen._rgen.seed, sl.rgen._rgen.draws + 1⟩⟩,
            sl._m, sl._v⟩, e⟩) ∧
    (∀ m v, (ne v v || ne sl._m m) = false →
      gaussian_rand ne ω m v ⟨some sl, e⟩ =
        .ok (ω ⟨sl._m, sl._v⟩ sl.rgen._rgen)
          ⟨some ⟨⟨⟨sl._m, sl._v⟩, ⟨sl.rgen._rgen.seed, sl.rgen._rgen.draws + 1⟩⟩,
            sl._m, sl._v⟩, e⟩) ∧
    (∀ m v, (ne v v || ne sl._m m) = true →
      gaussian_rand ne ω m v ⟨some sl, e⟩ =
        .ok (ω ⟨m, v⟩ ⟨e, 0⟩) ⟨some ⟨⟨⟨m, v⟩, ⟨e, 1⟩⟩, m, v⟩, e + 1⟩) := by
  have keep : ∀ m v, (ne v v || ne sl._m m) = false →
      gaussian_rand ne ω m v ⟨some sl, e⟩ =
        .ok (ω ⟨sl._m, sl._v⟩ sl.rgen._rgen)
          ⟨some ⟨⟨⟨sl._m, sl._v⟩, ⟨sl.rgen._rgen.seed, sl.rgen._rgen.draws + 1⟩⟩,
            sl._m, sl._v⟩, e⟩ := by
    intro m v h
    have hd : sl.rgen._dist = ⟨sl._m, sl._v⟩ := hsl
    simp [gaussian_rand, h, RandomGenerator.rand, hd]
  refine ⟨fun v h1 h2 => keep sl._m v (by simp [h1, h2]), keep, fun m v h => ?_⟩
  simp [gaussian_rand, h, RandomGenerator.rand, RandomGenerator.init]

theorem gaussian_variance_change_ignored_witness :
    (⟨⟨⟨some 0, some 1⟩, ⟨0, 1⟩⟩, some 0, some 1⟩ : GaussSlot Flt).inv ∧
    Flt.ne (some 0) (some 0) = false ∧ Flt.ne (some 2) (some 2) = false ∧
    gaussian_rand Flt.ne (fun d _ => d.a) (some 0) (some 2)
        ⟨some ⟨⟨⟨some 0, some 1⟩, ⟨0, 1⟩⟩, some 0, some 1⟩, 1⟩ =
      .ok ((fun (d : Dist Flt) (_ : Engine) => d.a) ⟨some 0, some 1⟩ ⟨0, 1⟩)
        ⟨some ⟨⟨⟨some 0, some 1⟩, ⟨0, 1 + 1⟩⟩, some 0, some 1⟩, 1⟩ :=
  ⟨rfl, by simp [Flt.ne], by simp [Flt.ne],
    (gaussian_variance_change_ignored Flt.ne (fun d _ => d.a)
      ⟨⟨⟨some 0, some 1⟩, ⟨0, 1⟩⟩, some 0, some 1⟩ rfl 1).1 (some 2)
      (by simp [Flt.ne]) (by simp [Flt.ne])⟩

/-! ## Traversal to the drawn position -/

theorem advance_eq (len : Nat) :
    ∀ (steps it : Nat), it ≤ len →
      advance len steps it = if it + steps ≤ len then some (it + steps) else none := by
  intro steps
  induction steps with
  | zero =>
    intro it h
    simp [advance, h]
  | succ steps ih =>
    intro it hit
    unfold advance
    by_cases h : it < len
    · simp only [h, if_true, ih (it + 1) h]
      by_cases h2 : it + 1 + steps ≤ len
      · have h3 : it + (steps + 1) ≤ len := by omega
        simp only [h2, h3, if_true]
        congr 1
        omega
      · have h3 : ¬ it + (steps + 1) ≤ len := by omega
        simp only [h2, h3, if_false]
    · have h3 : ¬ it + (steps + 1) ≤ len := by omega
      simp only [h, h3, if_false]

theorem size_of_int_eq (n : Int) (h0 : 0 ≤ n) (h1 : n < 2 ^ 31) : size_of_int n = n.toNat := by
  unfold size_of_int
  rw [Int.emod_eq_of_lt h0 (lt_trans h1 (by norm_num))]

theorem int_of_size_eq (n : Nat) (h : n < 2 ^ 31) : int_of_size n = (n : Int) := by
  unfold int_of_size
  have h1 : (n : Int) < 2 ^ 31 := by exact_mod_cast h
  rw [Int.emod_eq_of_lt (by positivity) (by linarith)]
  ring

/-- C14: when the drawn value `n` is not negative, `rand_in_list(l)` and `rand_l(l)` do the
same: both apply `++` to `l.begin()` exactly `n` times. For `n <= l.size()` both
return position `n` (an element of `l` when `n < l.size()`), and for `n > l.size()`
both run past the end. The first call of either is its initialisation followed
by a call on the initialised slot. -/
theorem rand_l_same_position {α : Type} (ω : Dist Int → Engine → Int) (l : List α)
    (g : RandomGenerator Int) (e : Nat)
    (h0 : 0 ≤ ω g._dist g._rgen) (h1 : ω g._dist g._rgen < 2 ^ 31) :
    rand_l ω l ⟨some g, e⟩ = rand_in_list ω l ⟨some g, e⟩ ∧
    ((ω g._dist g._rgen).toNat ≤ l.length →
      rand_in_list ω l ⟨some g, e⟩ =
        .ok (ω g._dist g._rgen).toNat
          ⟨some ⟨g._dist, ⟨g._rgen.seed, g._rgen.draws + 1⟩⟩, e⟩) ∧
    (l.length < (ω g._dist g._rgen).toNat →
      rand_in_list ω l ⟨some g, e⟩ =
        .fail .past_the_end ⟨some ⟨g._dist, ⟨g._rgen.seed, g._rgen.draws + 1⟩⟩, e⟩) ∧
    (∀ e0, rand_in_list ω l ⟨none, e0⟩ =
        rand_in_list ω l ⟨some (RandomGenerator.init 0 (int_of_size l.length) e0).1,
          (RandomGenerator.init 0 (int_of_size l.length) e0).2⟩ ∧
      rand_l ω l ⟨none, e0⟩ =
        rand_l ω l ⟨some (RandomGenerator.init 0 (int_of_size l.length) e0).1,
          (RandomGenerator.init 0 (int_of_size l.length) e0).2⟩) := by
  refine ⟨?_, fun h => ?_, fun h => ?_, fun e0 => ⟨rfl, rfl⟩⟩
  · simp only [rand_l, rand_in_list, RandomGenerator.rand, size_of_int_eq _ h0 h1]
  · simp only [rand_in_list, RandomGenerator.rand, advance_eq _ _ 0 (Nat.zero_le _),
      Nat.zero_add, h, if_true]
  · have h2 : ¬ (ω g._dist g._rgen).toNat ≤ l.length := by omega
    simp only [rand_in_list, RandomGenerator.rand, advance_eq _ _ 0 (Nat.zero_le _),
      Nat.zero_add, h2, if_false]

theorem rand_l_same_position_witness :
    (0 : Int) ≤ (fun (d : Dist Int) (_ : Engine) => d.b - 1) ⟨0, 3⟩ ⟨0, 1⟩ ∧
    (fun (d : Dist Int) (_ : Engine) => d.b - 1) ⟨0, 3⟩ ⟨0, 1⟩ < 2 ^ 31 ∧
    rand_l (fun d _ => d.b - 1) [10, 20, 30] ⟨some ⟨⟨0, 3⟩, ⟨0, 1⟩⟩, 1⟩ =
      rand_in_list (fun d _ => d.b - 1) [10, 20, 30] ⟨some ⟨⟨0, 3⟩, ⟨0, 1⟩⟩, 1⟩ :=
  ⟨by decide, by decide,
    (rand_l_same_position (fun d _ => d.b - 1) [10, 20, 30] ⟨⟨0, 3⟩, ⟨0, 1⟩⟩ 1
      (by decide) (by decide)).1⟩

theorem rand_in_list_state {α : Type} (ω : Dist Int → Engine → Int) (l : List α)
    (st : ListState) :
    (rand_in_list ω l st).state =
      match st.rgen with
      | some g => ⟨some ⟨g._dist, ⟨g._rgen.seed, g._rgen.draws + 1⟩⟩, st.entropy⟩
      | none => ⟨some ⟨⟨0, int_of_size l.length⟩, ⟨st.entropy, 1⟩⟩, st.entropy + 1⟩ := by
  rcases st with ⟨_ | g, e⟩
  · simp only [rand_in_list]
    split <;> rfl
  · simp only [rand_in_list]
    split <;> rfl

theorem rand_l_state {α : Type} (ω : Dist Int → Engine → Int) (l : List α)
    (st : ListState) :
    (rand_l ω l st).state =
      match st.rgen with
      | some g => ⟨some ⟨g._dist, ⟨g._rgen.seed, g._rgen.draws + 1⟩⟩, st.entropy⟩
      | none => ⟨some ⟨⟨0, int_of_size l.length⟩, ⟨st.entropy, 1⟩⟩, st.entropy + 1⟩ := by
  rcases st with ⟨_ | g, e⟩
  · simp only [rand_l]
    split <;> rfl
  · simp only [rand_l]
    split <;> rfl

theorem rand_in_list_some {α : Type} (ω : Dist Int → Engine → Int) (l : List α)
    (g : RandomGenerator Int) (e1 : Nat) :
    rand_in_list ω l ⟨some g, e1⟩ =
      if (ω g._dist g._rgen).toNat ≤ l.length then
        .ok (ω g._dist g._rgen).toNat
          ⟨some ⟨g._dist, ⟨g._rgen.seed, g._rgen.draws + 1⟩⟩, e1⟩
      else .fail .past_the_end ⟨some ⟨g._dist, ⟨g._rgen.seed, g._rgen.draws + 1⟩⟩, e1⟩ := by
  simp only [rand_in_list, RandomGenerator.rand, advance_eq _ _ 0 (Nat.zero_le _),
    Nat.zero_add]
  split_ifs <;> rfl

theorem rand_l_some {α : Type} (ω : Dist Int → Engine → Int) (l : List α)
    (g : RandomGenerator Int) (e1 : Nat) :
    rand_l ω l ⟨some g, e1⟩ =
      if size_of_int (ω g._dist g._rgen) ≤ l.length then
        .ok (size_of_int (ω g._dist g._rgen))
          ⟨some ⟨g._dist, ⟨g._rgen.seed, g._rgen.draws + 1⟩⟩, e1⟩
      else .fail .past_the_end ⟨some ⟨g._dist, ⟨g._rgen.seed, g._rgen.draws + 1⟩⟩, e1⟩ := by
  simp only [rand_l, RandomGenerator.rand, advance_eq _ _ 0 (Nat.zero_le _), Nat.zero_add]
  split_ifs <;> rfl

/-- C15: the distribution of `rand_in_list` and of `rand_l` is the one their first call
built, with `(0, l0.size())`: after any further calls, on containers of any size, it
is still that one, and each call draws from the slot's distribution whatever the
size of its container. So when a later container is shorter than the first one,
a draw the distribution may yield (its upper bound) runs the traversal past the
end. -/
theorem list_draw_range_fixed {α : Type} (l0 : List α) (e : Nat) :
    (∀ (ω : Dist Int → Engine → Int) (ls : List (List α)),
      (callsFrom (fun l st => rand_in_list ω l st) (l0 :: ls) ⟨none, e⟩).rgen.map
          (fun g => g._dist) = some ⟨0, int_of_size l0.length⟩ ∧
      (callsFrom (fun l st => rand_l ω l st) (l0 :: ls) ⟨none, e⟩).rgen.map
          (fun g => g._dist) = some ⟨0, int_of_size l0.length⟩) ∧
    (∀ (ω : Dist Int → Engine → Int) (l : List α) (g : RandomGenerator Int) (e1 : Nat),
      rand_in_list ω l ⟨some g, e1⟩ =
        (match advance l.length (ω g._dist g._rgen).toNat 0 with
          | some it => .ok it ⟨some ⟨g._dist, ⟨g._rgen.seed, g._rgen.draws + 1⟩⟩, e1⟩
          | none => .fail .past_the_end
              ⟨some ⟨g._dist, ⟨g._rgen.seed, g._rgen.draws + 1⟩⟩, e1⟩) ∧
      rand_l ω l ⟨some g, e1⟩ =
        (match advance l.length (size_of_int (ω g._dist g._rgen)) 0 with
          | some it => .ok it ⟨some ⟨g._dist, ⟨g._rgen.seed, g._rgen.draws + 1⟩⟩, e1⟩
          | none => .fail .past_the_end
              ⟨some ⟨g._dist, ⟨g._rgen.seed, g._rgen.draws + 1⟩⟩, e1⟩)) ∧
    (∀ l : List α, l.length < l0.length → l0.length < 2 ^ 31 →
      UniformIntSpec (fun d _ => d.b) ∧
      rand_in_list (fun d _ => d.b) l (rand_in_list (fun d _ => d.b) l0 ⟨none, e⟩).state =
        .fail .past_the_end ⟨some ⟨⟨0, l0.length⟩, ⟨e, 2⟩⟩, e + 1⟩ ∧
      rand_l (fun d _ => d.b) l (rand_l (fun d _ => d.b) l0 ⟨none, e⟩).state =
        .fail .past_the_end ⟨some ⟨⟨0, l0.length⟩, ⟨e, 2⟩⟩, e + 1⟩) := by
  refine ⟨fun ω ls => ⟨?_, ?_⟩, fun ω l g e1 => ⟨rfl, rfl⟩, fun l hl h0 => ⟨?_, ?_, ?_⟩⟩
  · have h1 : (rand_in_list ω l0 ⟨none, e⟩).state.rgen.map (fun g => g._dist) =
        some ⟨0, int_of_size l0.length⟩ := by
      rw [rand_in_list_state]
      rfl
    have h2 := callsFrom_invariant (fun (l : List α) st => rand_in_list ω l st)
      (fun st => st.rgen.map (fun g => g._dist) = some ⟨0, int_of_size l0.length⟩)
      (fun c st h => by
        rw [rand_in_list_state]
        rcases st with ⟨_ | g, e2⟩
        · cases h
        · exact h) ls _ h1
    unfold callsFrom
    cases hr : rand_in_list ω l0 ⟨none, e⟩ with
    | ok v st1 =>
      rw [hr] at h2
      exact h2
    | fail f st1 =>
      rw [hr] at h1
      exact h1
  · have h1 : (rand_l ω l0 ⟨none, e⟩).state.rgen.map (fun g => g._dist) =
        some ⟨0, int_of_size l0.length⟩ := by
      rw [rand_l_state]
      rfl
    have h2 := callsFrom_invariant (fun (l : List α) st => rand_l ω l st)
      (fun st => st.rgen.map (fun g => g._dist) = some ⟨0, int_of_size l0.length⟩)
      (fun c st h => by
        rw [rand_l_state]
        rcases st with ⟨_ | g, e2⟩
        · cases h
        · exact h) ls _ h1
    unfold callsFrom
    cases hr : rand_l ω l0 ⟨none, e⟩ with
    | ok v st1 =>
      rw [hr] at h2
      exact h2
    | fail f st1 =>
      rw [hr] at h1
      exact h1
  · exact fun _ _ h => ⟨h, le_refl _⟩
  · have hn : ¬ l0.length ≤ l.length := Nat.not_le.mpr hl
    have hst : (rand_in_list (fun d _ => d.b) l0 ⟨none, e⟩).state =
        ⟨some ⟨⟨0, (l0.length : Int)⟩, ⟨e, 1⟩⟩, e + 1⟩ := by
      rw [rand_in_list_state, ← int_of_size_eq _ h0]
    rw [hst, rand_in_list_some]
    exact if_neg hn
  · have hn : ¬ l0.length ≤ l.length := Nat.not_le.mpr hl
    have hst : (rand_l (fun d _ => d.b) l0 ⟨none, e⟩).state =
        ⟨some ⟨⟨0, (l0.length : Int)⟩, ⟨e, 1⟩⟩, e + 1⟩ := by
      rw [rand_l_state, ← int_of_size_eq _ h0]
    have hs : size_of_int (l0.length : Int) = l0.length :=
      size_of_int_eq _ (Int.ofNat_nonneg _) (by exact_mod_cast h0)
    rw [hst, rand_l_some]
    show (if size_of_int (l0.length : Int) ≤ l.length then _ else _) = _
    rw [hs]
    exact if_neg hn

theorem list_draw_range_fixed_witness :
    ([7] : List Nat).length < [10, 20, 30].length ∧ [10, 20, 30].length < 2 ^ 31 ∧
    rand_in_list (fun d _ => d.b) [7]
        (rand_in_list (fun d _ => d.b) [10, 20, 30] ⟨none, 0⟩).state =
      .fail .past_the_end ⟨some ⟨⟨0, ([10, 20, 30] : List Nat).length⟩, ⟨0, 2⟩⟩, 0 + 1⟩ :=
  ⟨by decide, by decide,
    ((list_draw_range_fixed [10, 20, 30] 0).2.2 [7] (by decide) (by decide)).2.1⟩

/-! ## Rebuilds made by `rand_ind` -/

theorem shuffle_rebuilds (ω : Dist Nat → Engine → Nat) (n : Nat)
    (hω : ∀ i, i < n → ∀ e, i ≤ ω ⟨i, n⟩ e ∧ ω ⟨i, n⟩ e < n) :
    ∀ (fuel i : Nat) (a : List Nat) (sl : RandSlot Nat) (e : Nat), 1 ≤ i → i < n →
      a.length = n → n ≤ i + fuel → sl._min = i - 1 →
      ∃ r st1, rand_ind.shuffle ω fuel i a ⟨some sl, e⟩ = .ok r st1 ∧
        st1.entropy = e + (n - i) ∧
        st1.slot = some ⟨n - 1, n, ⟨⟨n - 1, n⟩, ⟨st1.entropy - 1, 1⟩⟩⟩ := by
  intro fuel
  induction fuel with
  | zero =>
    intro i a sl e h1 hin ha hf hsl
    omega
  | succ fuel ih =>
    intro i a sl e h1 hin ha hf hsl
    have hi : i < a.length := by omega
    have hne : n ≠ sl._max ∨ i ≠ sl._min := Or.inr (by omega)
    have hv := hω i hin ⟨e, 0⟩
    have hr := rand_rebuild ω i n sl e hin hne
    rw [rand_post_ok i n _ _ hv.1 hv.2] at hr
    rw [shuffle_step ω fuel i a _ _ _ hi (by rw [ha]; exact hr) (by rw [ha]; exact hv.2)]
    by_cases hlast : i + 1 < n
    · obtain ⟨r, st1, h2, h3, h4⟩ := ih (i + 1) (swap a i (ω ⟨i, n⟩ ⟨e, 0⟩))
        ⟨i, n, ⟨⟨i, n⟩, ⟨e, 1⟩⟩⟩ (e + 1) (by omega) hlast (by rw [length_swap, ha])
        (by omega) (by simp)
      exact ⟨r, st1, h2, by omega, h4⟩
    · have hin1 : i = n - 1 := by omega
      refine ⟨_, _, shuffle_exit ω fuel (i + 1) _ _ (by rw [length_swap, ha]; omega), ?_, ?_⟩
      · show e + 1 = e + (n - i)
        omega
      · show some (⟨i, n, ⟨⟨i, n⟩, ⟨e, 1⟩⟩⟩ : RandSlot Nat) =
          some ⟨n - 1, n, ⟨⟨n - 1, n⟩, ⟨e + 1 - 1, 1⟩⟩⟩
        rw [hin1]
        simp

/-- C16: for `n >= 2`, from any slot state and with draws of which the `i`-th lies in
`[i, n)`, every iteration `i >= 1` of `rand_ind(a1, n)` finds the lower bound `i - 1` cached,
so it rebuilds: a new generator is constructed and seeded. The iterations `1` to
`n - 1` take `n - 1` seeds; iteration `0` takes one more unless it finds `(0, n)`
cached. When `rand_ind` returns, the slot caches `(n - 1, n)` with the generator of
the last rebuild. -/
theorem rand_ind_rebuilds (ω : Dist Nat → Engine → Nat) (a1 : List Nat) (n : Nat)
    (hn : 2 ≤ n) (st : RandState Nat) (hst : st.inv)
    (hω : ∀ i, i < n → ∀ e, i ≤ ω ⟨i, n⟩ e ∧ ω ⟨i, n⟩ e < n) :
    (∃ r st1, rand_ind ω a1 n st = .ok r st1 ∧
      st1.entropy = st.entropy + (n - 1) +
        (match st.slot with
          | none => 1
          | some sl => if sl._min = 0 ∧ sl._max = n then 0 else 1) ∧
      st.entropy + (n - 1) ≤ st1.entropy ∧
      st1.slot = some ⟨n - 1, n, ⟨⟨n - 1, n⟩, ⟨st1.entropy - 1, 1⟩⟩⟩) ∧
    (∀ (i : Nat) (sl : RandSlot Nat) (e : Nat), 1 ≤ i → i < n → sl._min = i - 1 →
      (rand ω i n ⟨some sl, e⟩).state = ⟨some ⟨i, n, ⟨⟨i, n⟩, ⟨e, 1⟩⟩⟩, e + 1⟩) := by
  constructor
  · have h0 : 0 < n := by omega
    have hlen : 0 < (List.range n).length := by simpa using h0
    rw [rand_ind_eq]
    -- iteration 0: an initialisation, a rebuild, or a draw from the cached generator
    have first : ∃ (k : Nat) (sl1 : RandSlot Nat) (e1 : Nat),
        rand ω 0 n st = .ok k ⟨some sl1, e1⟩ ∧ k < n ∧ sl1._min = 0 ∧
        e1 = st.entropy +
          (match st.slot with
            | none => 1
            | some sl => if sl._min = 0 ∧ sl._max = n then 0 else 1) := by
      rcases st with ⟨_ | sl, e⟩
      · have hv := hω 0 h0 ⟨e, 0⟩
        have hr := rand_first ω 0 n e h0
        rw [rand_post_ok 0 n _ _ hv.1 hv.2] at hr
        exact ⟨_, _, _, hr, hv.2, rfl, rfl⟩
      · by_cases hc : sl._min = 0 ∧ sl._max = n
        · have hd : sl.rgen._dist = ⟨0, n⟩ := by
            have := hst sl rfl
            rw [RandSlot.inv] at this
            rw [this, hc.1, hc.2]
          have hv := hω 0 h0 sl.rgen._rgen
          have hr := rand_cached ω 0 n sl e h0 hc.2.symm hc.1.symm
          rw [hd, rand_post_ok 0 n _ _ hv.1 hv.2] at hr
          exact ⟨_, _, _, hr, hv.2, hc.1, by simp [hc]⟩
        · have hne : n ≠ sl._max ∨ 0 ≠ sl._min := by
            by_contra hcc
            push_neg at hcc
            exact hc ⟨hcc.2.symm, hcc.1.symm⟩
          have hv := hω 0 h0 ⟨e, 0⟩
          have hr := rand_rebuild ω 0 n sl e h0 hne
          rw [rand_post_ok 0 n _ _ hv.1 hv.2] at hr
          exact ⟨_, _, _, hr, hv.2, rfl, by simp [hc]⟩
    obtain ⟨k, sl1, e1, hr, hk, hsl1, he1⟩ := first
    have key : ∀ fuel, n ≤ fuel →
        ∃ r st1, rand_ind.shuffle ω fuel 0 (List.range n) st = .ok r st1 ∧
          st1.entropy = e1 + (n - 1) ∧
          st1.slot = some ⟨n - 1, n, ⟨⟨n - 1, n⟩, ⟨st1.entropy - 1, 1⟩⟩⟩ := by
      intro fuel hf
      cases fuel with
      | zero => omega
      | succ f =>
        rw [shuffle_step ω f 0 (List.range n) st _ k hlen
          (by rw [List.length_range]; exact hr) (by rw [List.length_range]; exact hk)]
        exact shuffle_rebuilds ω n hω f 1 (swap (List.range n) 0 k) sl1 e1 (le_refl 1)
          (by omega) (by rw [length_swap, List.length_range]) (by omega)
          (by simpa using hsl1)
    obtain ⟨r, st1, h2, h3, h4⟩ := key n (le_refl n)
    refine ⟨r, st1, h2, ?_, ?_, h4⟩
    · rw [h3, he1]
      omega
    · rw [h3, he1]
      omega
  · intro i sl e h1 hin hsl
    rw [rand_rebuild ω i n sl e hin (Or.inr (by omega)), rand_post_state]

theorem rand_ind_rebuilds_witness :
    2 ≤ 3 ∧ (⟨some ⟨0, 3, ⟨⟨0, 3⟩, ⟨0, 5⟩⟩⟩, 1⟩ : RandState Nat).inv ∧
    (∀ i, i < 3 → ∀ e : Engine, i ≤ (fun (d : Dist Nat) (_ : Engine) => d.b - 1) ⟨i, 3⟩ e ∧
      (fun (d : Dist Nat) (_ : Engine) => d.b - 1) ⟨i, 3⟩ e < 3) ∧
    ∃ r st1, rand_ind (fun d _ => d.b - 1) [] 3 ⟨some ⟨0, 3, ⟨⟨0, 3⟩, ⟨0, 5⟩⟩⟩, 1⟩ = .ok r st1 ∧
      st1.entropy = 1 + (3 - 1) +
        (match (⟨some ⟨0, 3, ⟨⟨0, 3⟩, ⟨0, 5⟩⟩⟩, 1⟩ : RandState Nat).slot with
          | none => 1
          | some sl => if sl._min = 0 ∧ sl._max = 3 then 0 else 1) ∧
      1 + (3 - 1) ≤ st1.entropy ∧
      st1.slot = some ⟨3 - 1, 3, ⟨⟨3 - 1, 3⟩, ⟨st1.entropy - 1, 1⟩⟩⟩ :=
  ⟨by decide, fun sl h => by cases h; rfl, fun i hi _ => ⟨by simp; omega, by simp⟩,
    (rand_ind_rebuilds (fun d _ => d.b - 1) [] 3 (by decide)
      ⟨some ⟨0, 3, ⟨⟨0, 3⟩, ⟨0, 5⟩⟩⟩, 1⟩ (fun sl h => by cases h; rfl)
      (fun i hi _ => ⟨by simp; omega, by simp⟩)).1⟩

end sferes.misc
